import Mathlib

/-!
# Verification of the cleandb++ CSV cleaning pipeline

Shallow embedding of `src/cleandb++.py` (the core cleaning pipeline:
numeric extraction, header normalization, column pruning, missing-value
reporting, mean imputation, and the per-file orchestrator).

Modeling conventions:
* Python/pandas floating-point numbers are modeled as rationals (`ℚ`);
  `float('nan')` and `pd.NA` are distinct cell constructors since the code
  distinguishes them (`isinstance(nan, float)` is true, `isinstance(pd.NA,
  (int, float))` is false, while both count as missing for `isna`).
* Strings are lists of characters; character classes are decided on the
  Unicode code point (`Char.toNat`).  The regex class `\d` is modeled as the
  ASCII digits and `\s` / `str.strip` whitespace as the standard Python
  whitespace code points.
-/

namespace CleanDB

/-! ## Character classes -/

/-- ASCII digit test (model of the regex class `\d`). -/
def isDig (c : Char) : Bool := 48 ≤ c.toNat && c.toNat ≤ 57

/-- Sign characters accepted by the extraction regex `[-+]?`. -/
def isSign (c : Char) : Bool := c = '-' || c = '+'

/-- Whitespace as recognized by Python's `str.strip` and the regex class
`\s` (ASCII whitespace, the C1 control quartet, NEL, NBSP and the Unicode
space separators). -/
def pyWs (c : Char) : Bool :=
  (9 ≤ c.toNat && c.toNat ≤ 13) || c.toNat = 32 ||
  (28 ≤ c.toNat && c.toNat ≤ 31) || c.toNat = 133 || c.toNat = 160 ||
  c.toNat = 0x1680 || (0x2000 ≤ c.toNat && c.toNat ≤ 0x200a) ||
  c.toNat = 0x2028 || c.toNat = 0x2029 || c.toNat = 0x202f ||
  c.toNat = 0x205f || c.toNat = 0x3000

/-- Python str.strip: drop whitespace from both ends. -/
def pyStrip (l : List Char) : List Char :=
  ((l.dropWhile pyWs).reverse.dropWhile pyWs).reverse

/-- Python percent removal, value.replace: remove every percent sign. -/
def removePct (l : List Char) : List Char := l.filter (fun c => c ≠ '%')

/-! ## The extraction regex `[-+]?\d*\.?\d+`

`matchBody` is the greedy backtracking match of `\d*\.?\d+` at the start of
a string, exactly as Python's engine resolves it: the maximal digit run,
then a dot only if at least one digit follows it (otherwise backtrack to
the digit run alone).  `matchNumAt` adds the optional sign and `reSearchNum`
is `re.search`: try every start position left to right. -/

def matchBodyAux (d1 : List Char) : List Char → Option (List Char)
  | c :: r2 =>
    if c = '.' then
      if (r2.takeWhile isDig).isEmpty then (if d1.isEmpty then none else some d1)
      else some (d1 ++ '.' :: r2.takeWhile isDig)
    else (if d1.isEmpty then none else some d1)
  | [] => if d1.isEmpty then none else some d1

def matchBody (cs : List Char) : Option (List Char) :=
  matchBodyAux (cs.takeWhile isDig) (cs.dropWhile isDig)

def matchNumAt : List Char → Option (List Char)
  | [] => none
  | c :: rest => if isSign c then (matchBody rest).map (c :: ·) else matchBody (c :: rest)

def reSearchNum : List Char → Option (List Char)
  | [] => none
  | c :: rest =>
    match matchNumAt (c :: rest) with
    | some m => some m
    | none => reSearchNum rest

/-! ## Parsing a matched literal (`float(match.group())`) -/

def digitsToNat (l : List Char) : ℕ :=
  l.foldl (fun a c => 10 * a + (c.toNat - 48)) 0

def parseUnsigned (l : List Char) : ℚ :=
  let ip := l.takeWhile isDig
  match l.dropWhile isDig with
  | c :: fp =>
    if c = '.' then (digitsToNat ip : ℚ) + (digitsToNat fp : ℚ) / (10 ^ fp.length : ℚ)
    else (digitsToNat ip : ℚ)
  | [] => (digitsToNat ip : ℚ)

def parseLit : List Char → ℚ
  | '-' :: r => - parseUnsigned r
  | '+' :: r => parseUnsigned r
  | m => parseUnsigned m

/-! ## Cell values -/

/-- One cell of a dataframe.  `num` is a finite `int`/`float`; `nan` is
`float('nan')` (missing, but an instance of `float`); `pdna` is `pd.NA`
(missing, not a number instance); `str` is text; `other` is any other
Python object. -/
inductive Cell where
  | num (q : ℚ)
  | nan
  | pdna
  | str (s : String)
  | other
  deriving DecidableEq, Repr

/-- Missing test (`pd.isna`): both `nan` and `pd.NA` are missing. -/
def Cell.isNA : Cell → Bool
  | .nan => true
  | .pdna => true
  | _ => false

/-- Function extract_numeric (src/cleandb++.py lines 11-20): strings get percent
signs removed, are stripped, and searched with `[-+]?\d*\.?\d+`; numbers
pass through `float`; everything else yields `pd.NA`. -/
def extract_numeric : Cell → Cell
  | .str s =>
    match reSearchNum (pyStrip (removePct s.data)) with
    | some m => .num (parseLit m)
    | none => .pdna
  | .num q => .num q
  | .nan => .nan
  | .pdna => .pdna
  | .other => .pdna

/-! ## Specification-side description of the extraction pattern

`IsULit` is the language of `\d*\.?\d+` stated as the spec words it:
digits with an optional single embedded decimal point (a run of digits, or
digits around a single dot with at least one digit after it).  `IsNumLit`
adds the optional sign.  `SubAt t i m` says `m` occurs in `t` starting at
index `i`. -/

def IsULit (m : List Char) : Prop :=
  (m ≠ [] ∧ ∀ c ∈ m, isDig c) ∨
  (∃ a b, m = a ++ '.' :: b ∧ (∀ c ∈ a, isDig c) ∧ b ≠ [] ∧ (∀ c ∈ b, isDig c))

def IsNumLit (m : List Char) : Prop :=
  IsULit m ∨ ∃ r, (m = '-' :: r ∨ m = '+' :: r) ∧ IsULit r

def SubAt (t : List Char) (i : ℕ) (m : List Char) : Prop :=
  ∃ pre suf, t = pre ++ m ++ suf ∧ pre.length = i

lemma isULit_nil : ¬ IsULit [] := by
  rintro (⟨h, -⟩ | ⟨a, b, h, -⟩)
  · exact h rfl
  · exact List.append_ne_nil_of_right_ne_nil a (List.cons_ne_nil _ _) h.symm

lemma isNumLit_nil : ¬ IsNumLit [] := by
  rintro (h | ⟨r, (h | h), -⟩)
  · exact isULit_nil h
  · exact List.cons_ne_nil _ _ h.symm
  · exact List.cons_ne_nil _ _ h.symm

/-! ### Elementary takeWhile/dropWhile facts -/

lemma takeWhile_all {p : Char → Bool} {l : List Char} (h : ∀ c ∈ l, p c) :
    l.takeWhile p = l := by
  induction l with
  | nil => rfl
  | cons a l ih =>
    rw [List.takeWhile_cons, if_pos (h a (.head l))]
    exact congrArg _ (ih fun c hc => h c (.tail a hc))

lemma prefix_takeWhile {p : Char → Bool} {m l : List Char}
    (hp : m <+: l) (hm : ∀ c ∈ m, p c) : m <+: l.takeWhile p := by
  induction m generalizing l with
  | nil => exact List.nil_prefix
  | cons a m ih =>
    obtain ⟨suf, rfl⟩ := hp
    rw [List.cons_append, List.takeWhile_cons, if_pos (hm a (.head m))]
    exact List.cons_prefix_cons.mpr
      ⟨rfl, ih ( List.prefix_append m suf) fun c hc => hm c (.tail a hc)⟩

lemma takeWhile_append_stop {p : Char → Bool} {a : List Char} {c : Char}
    (ha : ∀ x ∈ a, p x) (hc : ¬ p c) (x : List Char) :
    (a ++ c :: x).takeWhile p = a ∧ (a ++ c :: x).dropWhile p = c :: x := by
  induction a with
  | nil =>
    rw [List.nil_append, List.takeWhile_cons, List.dropWhile_cons]
    simp [hc]
  | cons b a ih =>
    have hb := ha b (.head a)
    have := ih (fun y hy => ha y (.tail b hy))
    rw [List.cons_append, List.takeWhile_cons, List.dropWhile_cons, if_pos hb, if_pos hb]
    exact ⟨by rw [this.1], this.2⟩

lemma takeWhile_append_of_all {p : Char → Bool} {x w : List Char}
    (hw : ∀ c ∈ w, p c = false) :
    (x ++ w).takeWhile p = x.takeWhile p ∧ (x ++ w).dropWhile p = x.dropWhile p ++ w := by
  induction x with
  | nil =>
    rw [List.nil_append, List.takeWhile_nil, List.dropWhile_nil, List.nil_append]
    cases w with
    | nil => exact ⟨rfl, rfl⟩
    | cons c w =>
      rw [List.takeWhile_cons, List.dropWhile_cons]
      simp [hw c (.head w)]
  | cons a x ih =>
    rw [List.cons_append, List.takeWhile_cons, List.takeWhile_cons,
      List.dropWhile_cons, List.dropWhile_cons]
    by_cases hp : p a
    · simp [hp, ih.1, ih.2]
    · simp [hp]

lemma dropWhile_head_not {p : Char → Bool} {l : List Char} {c : Char} {r : List Char}
    (h : l.dropWhile p = c :: r) : p c = false := by
  induction l with
  | nil => simp at h
  | cons a l ih =>
    rw [List.dropWhile_cons] at h
    by_cases hp : p a
    · exact ih (by simpa [hp] using h)
    · rw [if_neg hp] at h
      injection h with h1 h2
      subst h1
      simpa using hp

/-- An all-digit prefix fits inside the leading digit run. -/
lemma all_digit_prefix_le {cs m' : List Char} (hp : m' <+: cs)
    (hd : ∀ c ∈ m', isDig c) : m'.length ≤ (cs.takeWhile isDig).length :=
  (prefix_takeWhile hp hd).length_le

/-- A dotted-literal prefix pins down the leading digit run and the dot. -/
lemma dotted_prefix_decomp {cs a b : List Char} (hp : (a ++ '.' :: b) <+: cs)
    (ha : ∀ c ∈ a, isDig c) :
    ∃ suf, cs = a ++ '.' :: (b ++ suf) ∧
      cs.takeWhile isDig = a ∧ cs.dropWhile isDig = '.' :: (b ++ suf) := by
  obtain ⟨suf, rfl⟩ := hp
  have hdot : ¬ isDig '.' := by decide
  have h := takeWhile_append_stop ha hdot (b ++ suf)
  exact ⟨suf, by simp, by simpa using h.1, by simpa using h.2⟩

lemma matchBody_some {cs m : List Char} (h : matchBody cs = some m) :
    m <+: cs ∧ IsULit m ∧ ∀ m', m' <+: cs → IsULit m' → m'.length ≤ m.length := by
  have hcs : cs.takeWhile isDig ++ cs.dropWhile isDig = cs :=
    List.takeWhile_append_dropWhile isDig cs
  have hd1 : ∀ c ∈ cs.takeWhile isDig, isDig c := fun c hc => List.mem_takeWhile_imp hc
  have digitCase : ∀ (_ : ¬ (cs.takeWhile isDig).isEmpty),
      (cs.takeWhile isDig) <+: cs ∧ IsULit (cs.takeWhile isDig) := by
    intro hne
    refine ⟨ List.takeWhile_prefix _, Or.inl ⟨?_, hd1⟩⟩
    simpa [List.isEmpty_iff] using hne
  rw [matchBody] at h
  rcases hr : cs.dropWhile isDig with - | ⟨c, r2⟩ <;>
    rw [hr] at h <;> simp only [matchBodyAux] at h
  · -- no non-digit at all: cs is all digits
    by_cases hne : (cs.takeWhile isDig).isEmpty
    · rw [if_pos hne] at h; exact absurd h (by simp)
    · rw [if_neg hne] at h
      obtain rfl : cs.takeWhile isDig = m := by simpa using h
      refine ⟨(digitCase hne).1, (digitCase hne).2, ?_⟩
      intro m' hp hu
      rcases hu with ⟨-, hd⟩ | ⟨a, b, rfl, ha, -, -⟩
      · exact all_digit_prefix_le hp hd
      · obtain ⟨suf, -, -, hdw⟩ := dotted_prefix_decomp hp ha
        rw [hdw] at hr; exact absurd hr (by simp)
  · have hcDig : isDig c = false := dropWhile_head_not hr
    by_cases hdot : c = '.'
    · subst hdot
      rw [if_pos rfl] at h
      by_cases hd2 : (r2.takeWhile isDig).isEmpty
      · -- dot not followed by a digit: fall back to the digit run
        rw [if_pos hd2] at h
        by_cases hne : (cs.takeWhile isDig).isEmpty
        · rw [if_pos hne] at h; exact absurd h (by simp)
        · rw [if_neg hne] at h
          obtain rfl : cs.takeWhile isDig = m := by simpa using h
          refine ⟨(digitCase hne).1, (digitCase hne).2, ?_⟩
          intro m' hp hu
          rcases hu with ⟨-, hd⟩ | ⟨a, b, rfl, ha, hbne, hb⟩
          · exact all_digit_prefix_le hp hd
          · obtain ⟨suf, -, hta, hdw⟩ := dotted_prefix_decomp hp ha
            rw [hdw] at hr
            injection hr with h1 hbr
            have : b <+: r2.takeWhile isDig := prefix_takeWhile ⟨suf, hbr⟩ hb
            rw [List.isEmpty_iff.mp hd2] at this
            exact absurd ( List.prefix_nil.mp this) hbne
      · -- full decimal literal
        rw [if_neg hd2] at h
        obtain rfl : cs.takeWhile isDig ++ '.' :: r2.takeWhile isDig = m := by simpa using h
        have hr2 : r2.takeWhile isDig ++ r2.dropWhile isDig = r2 :=
          List.takeWhile_append_dropWhile isDig r2
        have hpre : (cs.takeWhile isDig ++ '.' :: r2.takeWhile isDig) <+: cs := by
          refine ⟨r2.dropWhile isDig, ?_⟩
          rw [List.append_assoc, List.cons_append, hr2, ← hr, hcs]
        have hd2' : ∀ c ∈ r2.takeWhile isDig, isDig c := fun c hc => List.mem_takeWhile_imp hc
        refine ⟨hpre, Or.inr ⟨_, _, rfl, hd1, by simpa [List.isEmpty_iff] using hd2, hd2'⟩, ?_⟩
        intro m' hp hu
        rcases hu with ⟨-, hd⟩ | ⟨a, b, rfl, ha, hbne, hb⟩
        · have := all_digit_prefix_le hp hd
          simp only [List.length_append, List.length_cons]
          omega
        · obtain ⟨suf, -, hta, hdw⟩ := dotted_prefix_decomp hp ha
          rw [hdw] at hr
          injection hr with h1 hbr
          have hble : b.length ≤ (r2.takeWhile isDig).length :=
            all_digit_prefix_le ⟨suf, hbr⟩ hb
          have hae : a.length = (cs.takeWhile isDig).length := by rw [hta]
          simp only [List.length_append, List.length_cons]
          omega
    · -- the first non-digit is not a dot: digit run or nothing
      rw [if_neg hdot] at h
      by_cases hne : (cs.takeWhile isDig).isEmpty
      · rw [if_pos hne] at h; exact absurd h (by simp)
      · rw [if_neg hne] at h
        obtain rfl : cs.takeWhile isDig = m := by simpa using h
        refine ⟨(digitCase hne).1, (digitCase hne).2, ?_⟩
        intro m' hp hu
        rcases hu with ⟨-, hd⟩ | ⟨a, b, rfl, ha, -, -⟩
        · exact all_digit_prefix_le hp hd
        · obtain ⟨suf, -, -, hdw⟩ := dotted_prefix_decomp hp ha
          rw [hdw] at hr
          injection hr with h1 h2
          exact absurd h1.symm hdot

lemma matchBody_none {cs : List Char} (h : matchBody cs = none) :
    ∀ m', m' <+: cs → ¬ IsULit m' := by
  intro m' hp hu
  rw [matchBody] at h
  rcases hr : cs.dropWhile isDig with - | ⟨c, r2⟩ <;>
    rw [hr] at h <;> simp only [matchBodyAux] at h
  · by_cases hne : (cs.takeWhile isDig).isEmpty
    · -- cs itself is empty
      have hnil : cs = [] := by
        have h2 := List.takeWhile_append_dropWhile isDig cs
        rw [hr, List.isEmpty_iff.mp hne] at h2
        simpa using h2.symm
      subst hnil
      rcases hu with ⟨hne', -⟩ | ⟨a, b, he, -, -, -⟩
      · exact hne' ( List.prefix_nil.mp hp)
      · rw [ List.prefix_nil.mp hp] at he
        exact List.append_ne_nil_of_right_ne_nil a (List.cons_ne_nil _ _) he.symm
    · rw [if_neg hne] at h; exact absurd h (by simp)
  · have hcDig : isDig c = false := dropWhile_head_not hr
    by_cases hdot : c = '.'
    · subst hdot
      rw [if_pos rfl] at h
      by_cases hd2 : (r2.takeWhile isDig).isEmpty
      · rw [if_pos hd2] at h
        by_cases hne : (cs.takeWhile isDig).isEmpty
        · -- no leading digits, and no digit after the dot
          rcases hu with ⟨hne', hd⟩ | ⟨a, b, rfl, ha, hbne, hb⟩
          · have hle := all_digit_prefix_le hp hd
            rw [List.isEmpty_iff.mp hne] at hle
            simp only [List.length_nil, Nat.le_zero, List.length_eq_zero] at hle
            exact hne' hle
          · obtain ⟨suf, -, -, hdw⟩ := dotted_prefix_decomp hp ha
            rw [hdw] at hr
            injection hr with h1 hbr
            have hbp : b <+: r2.takeWhile isDig := prefix_takeWhile ⟨suf, hbr⟩ hb
            rw [List.isEmpty_iff.mp hd2] at hbp
            exact absurd ( List.prefix_nil.mp hbp) hbne
        · rw [if_neg hne] at h; exact absurd h (by simp)
      · rw [if_neg hd2] at h; exact absurd h (by simp)
    · rw [if_neg hdot] at h
      by_cases hne : (cs.takeWhile isDig).isEmpty
      · rcases hu with ⟨hne', hd⟩ | ⟨a, b, rfl, ha, hbne, hb⟩
        · have hle := all_digit_prefix_le hp hd
          rw [List.isEmpty_iff.mp hne] at hle
          simp only [List.length_nil, Nat.le_zero, List.length_eq_zero] at hle
          exact hne' hle
        · obtain ⟨suf, -, -, hdw⟩ := dotted_prefix_decomp hp ha
          rw [hdw] at hr
          injection hr with h1 h2
          exact absurd h1.symm hdot
      · rw [if_neg hne] at h; exact absurd h (by simp)

lemma isSign_cases {c : Char} (hs : isSign c = true) : c = '-' ∨ c = '+' := by
  simpa [isSign] using hs

/-- Under a leading sign character, a literal is exactly a sign plus an
unsigned literal. -/
lemma numLit_cons_sign {c : Char} (hs : isSign c = true) {m : List Char} :
    IsNumLit (c :: m) ↔ IsULit m := by
  constructor
  · rintro (hu | ⟨r, (he | he), hu⟩)
    · exfalso
      rcases hu with ⟨-, hd⟩ | ⟨a, b, he, ha, -, -⟩
      · have := hd c (.head m)
        rcases isSign_cases hs with rfl | rfl <;> simp [isDig] at this
      · cases a with
        | nil =>
          injection he with h1 h2
          rcases isSign_cases hs with rfl | rfl <;> simp at h1
        | cons a0 a' =>
          rw [List.cons_append] at he
          injection he with h1 h2
          have := ha a0 (.head a')
          rw [← h1] at this
          rcases isSign_cases hs with rfl | rfl <;> simp [isDig] at this
    · injection he with h1 h2; rwa [h2]
    · injection he with h1 h2; rwa [h2]
  · intro hu
    rcases isSign_cases hs with rfl | rfl
    · exact Or.inr ⟨m, Or.inl rfl, hu⟩
    · exact Or.inr ⟨m, Or.inr rfl, hu⟩

/-- Without a leading sign character, literal prefixes are unsigned. -/
lemma numLit_prefix_no_sign {c : Char} (hs : isSign c = false) {rest m' : List Char}
    (hp : m' <+: c :: rest) (hnl : IsNumLit m') : IsULit m' := by
  rcases hnl with h' | ⟨r, (rfl | rfl), hu⟩
  · exact h'
  · have h1 := ( List.cons_prefix_cons.mp hp).1
    rw [← h1] at hs; simp [isSign] at hs
  · have h1 := ( List.cons_prefix_cons.mp hp).1
    rw [← h1] at hs; simp [isSign] at hs

lemma matchNumAt_some {cs m : List Char} (h : matchNumAt cs = some m) :
    m <+: cs ∧ IsNumLit m ∧ ∀ m', m' <+: cs → IsNumLit m' → m'.length ≤ m.length := by
  cases cs with
  | nil => simp [matchNumAt] at h
  | cons c rest =>
    rw [matchNumAt] at h
    by_cases hs : isSign c
    · rw [if_pos hs] at h
      rcases hb : matchBody rest with - | mb <;> rw [hb] at h
      · simp at h
      · obtain rfl : c :: mb = m := by simpa using h
        obtain ⟨hpre, hu, hmax⟩ := matchBody_some hb
        refine ⟨ List.cons_prefix_cons.mpr ⟨rfl, hpre⟩, (numLit_cons_sign hs).mpr hu, ?_⟩
        intro m' hp hnl
        cases m' with
        | nil => simp
        | cons c' m'' =>
          obtain ⟨rfl, hp''⟩ := List.cons_prefix_cons.mp hp
          have hu'' : IsULit m'' := (numLit_cons_sign hs).mp hnl
          simpa using hmax m'' hp'' hu''
    · rw [if_neg hs] at h
      obtain ⟨hpre, hu, hmax⟩ := matchBody_some h
      exact ⟨hpre, Or.inl hu, fun m' hp hnl =>
        hmax m' hp (numLit_prefix_no_sign (by simpa using hs) hp hnl)⟩

lemma matchNumAt_none {cs : List Char} (h : matchNumAt cs = none) :
    ∀ m', m' <+: cs → ¬ IsNumLit m' := by
  intro m' hp hnl
  cases cs with
  | nil => exact isNumLit_nil ( List.prefix_nil.mp hp ▸ hnl)
  | cons c rest =>
    rw [matchNumAt] at h
    by_cases hs : isSign c
    · rw [if_pos hs] at h
      rcases hb : matchBody rest with - | mb <;> rw [hb] at h
      · cases m' with
        | nil => exact isNumLit_nil hnl
        | cons c' m'' =>
          obtain ⟨rfl, hp''⟩ := List.cons_prefix_cons.mp hp
          exact matchBody_none hb m'' hp'' ((numLit_cons_sign hs).mp hnl)
      · simp at h
    · rw [if_neg hs] at h
      exact matchBody_none h m' hp (numLit_prefix_no_sign (by simpa using hs) hp hnl)

lemma reSearchNum_some {t m : List Char} (h : reSearchNum t = some m) :
    ∃ i, i ≤ t.length ∧ m <+: t.drop i ∧ IsNumLit m ∧
      (∀ m', m' <+: t.drop i → IsNumLit m' → m'.length ≤ m.length) ∧
      (∀ j, j < i → ∀ m', m' <+: t.drop j → ¬ IsNumLit m') := by
  induction t with
  | nil => simp [reSearchNum] at h
  | cons c rest ih =>
    rw [reSearchNum] at h
    split at h
    · rename_i mm heq
      obtain rfl : mm = m := by simpa using h
      obtain ⟨hpre, hl, hmax⟩ := matchNumAt_some heq
      exact ⟨0, Nat.zero_le _, by simpa using hpre, hl, by simpa using hmax,
        fun j hj => absurd hj (Nat.not_lt_zero j)⟩
    · rename_i heq
      obtain ⟨i, hi, hp, hl, hmax, hleft⟩ := ih h
      refine ⟨i + 1, by simpa using Nat.succ_le_succ hi, by simpa using hp, hl,
        by simpa using hmax, ?_⟩
      intro j hj m' hpj
      cases j with
      | zero => exact matchNumAt_none heq m' (by simpa using hpj)
      | succ j' => exact hleft j' (by omega) m' (by simpa using hpj)

lemma reSearchNum_none {t : List Char} (h : reSearchNum t = none) :
    ∀ j m', m' <+: t.drop j → ¬ IsNumLit m' := by
  induction t with
  | nil =>
    intro j m' hp
    rw [List.drop_nil] at hp
    rw [ List.prefix_nil.mp hp]
    exact isNumLit_nil
  | cons c rest ih =>
    rw [reSearchNum] at h
    split at h
    · exact absurd h (by simp)
    · rename_i heq
      intro j m' hp
      cases j with
      | zero => exact matchNumAt_none heq m' (by simpa using hp)
      | succ j' => exact ih h j' m' (by simpa using hp)

/-! ### Whitespace is inert for the search -/

lemma pyWs_facts {c : Char} (h : pyWs c = true) :
    isDig c = false ∧ isSign c = false ∧ c ≠ '.' ∧ c ≠ '%' := by
  have hn : ¬(48 ≤ c.toNat ∧ c.toNat ≤ 57) ∧ c.toNat ≠ 45 ∧ c.toNat ≠ 43 ∧
      c.toNat ≠ 46 ∧ c.toNat ≠ 37 := by
    simp [pyWs] at h
    omega
  refine ⟨?_, ?_, ?_, ?_⟩
  · simp only [isDig, Bool.and_eq_false_iff, decide_eq_false_iff_not]
    rcases Nat.lt_or_ge c.toNat 48 with h48 | h48
    · exact Or.inl (by omega)
    · exact Or.inr (by omega)
  · simp only [isSign, Bool.or_eq_false_iff, decide_eq_false_iff_not]
    exact ⟨fun hc => hn.2.1 (hc ▸ rfl), fun hc => hn.2.2.1 (hc ▸ rfl)⟩
  · exact fun hc => hn.2.2.2.1 (hc ▸ rfl)
  · exact fun hc => hn.2.2.2.2 (hc ▸ rfl)

lemma matchBody_append_ws {x w : List Char} (hw : ∀ c ∈ w, pyWs c) :
    matchBody (x ++ w) = matchBody x := by
  have hwd : ∀ c ∈ w, isDig c = false := fun c hc => (pyWs_facts (hw c hc)).1
  obtain ⟨ht, hd⟩ := takeWhile_append_of_all (x := x) hwd
  rw [matchBody, matchBody, ht, hd]
  rcases hr : x.dropWhile isDig with - | ⟨c, r2⟩
  · rw [List.nil_append]
    cases hww : w with
    | nil => rfl
    | cons cw w' =>
      have hf := pyWs_facts (hw cw (hww ▸ List.mem_cons_self cw w'))
      simp only [matchBodyAux]
      rw [if_neg hf.2.2.1]
  · rw [List.cons_append]
    simp only [matchBodyAux]
    by_cases hdot : c = '.'
    · rw [if_pos hdot, if_pos hdot, (takeWhile_append_of_all (x := r2) hwd).1]
    · rw [if_neg hdot, if_neg hdot]

lemma matchNumAt_append_ws {x w : List Char} (hw : ∀ c ∈ w, pyWs c) :
    matchNumAt (x ++ w) = matchNumAt x := by
  cases x with
  | nil =>
    rw [List.nil_append]
    cases hww : w with
    | nil => rfl
    | cons cw w' =>
      have hf := pyWs_facts (hw cw (hww ▸ List.mem_cons_self cw w'))
      rw [matchNumAt, matchNumAt, hf.2.1]
      simp only [Bool.false_eq_true, if_false]
      have : matchBody (cw :: w') = matchBody ([] : List Char) := by
        have := matchBody_append_ws (x := []) (w := cw :: w')
          (fun c hc => hw c (hww ▸ hc))
        simpa using this
      rw [this]
      rfl
  | cons a x' =>
    rw [List.cons_append, matchNumAt, matchNumAt]
    by_cases hs : isSign a
    · rw [if_pos hs, if_pos hs, matchBody_append_ws hw]
    · rw [if_neg hs, if_neg hs, ← List.cons_append, matchBody_append_ws hw]

lemma reSearchNum_all_ws {w : List Char} (hw : ∀ c ∈ w, pyWs c) :
    reSearchNum w = none := by
  induction w with
  | nil => rfl
  | cons c w' ih =>
    rw [reSearchNum]
    have hm : matchNumAt (c :: w') = none := by
      have h2 := matchNumAt_append_ws (x := []) (w := c :: w') hw
      simpa using h2
    rw [hm]
    exact ih fun c hc => hw c (.tail _ hc)

lemma reSearchNum_append_ws {x w : List Char} (hw : ∀ c ∈ w, pyWs c) :
    reSearchNum (x ++ w) = reSearchNum x := by
  induction x with
  | nil =>
    rw [List.nil_append, reSearchNum_all_ws hw]
    rfl
  | cons a x' ih =>
    have key : matchNumAt (a :: (x' ++ w)) = matchNumAt (a :: x') := by
      rw [← List.cons_append]; exact matchNumAt_append_ws hw
    rw [List.cons_append, reSearchNum, key]
    conv_rhs => rw [reSearchNum]
    cases hma : matchNumAt (a :: x') with
    | some m => rfl
    | none => exact ih

lemma reSearchNum_ws_pre {w x : List Char} (hw : ∀ c ∈ w, pyWs c) :
    reSearchNum (w ++ x) = reSearchNum x := by
  induction w with
  | nil => rw [List.nil_append]
  | cons c w' ih =>
    have hf := pyWs_facts (hw c (.head w'))
    have hm : matchNumAt (c :: (w' ++ x)) = none := by
      rw [matchNumAt, hf.2.1]
      simp only [Bool.false_eq_true, if_false]
      rw [matchBody, List.takeWhile_cons, List.dropWhile_cons]
      simp only [hf.1, Bool.false_eq_true, if_false]
      simp only [matchBodyAux]
      rw [if_neg hf.2.2.1]
      rfl
    rw [List.cons_append, reSearchNum, hm]
    exact ih fun y hy => hw y (.tail _ hy)

/-- Any list splits as leading whitespace, its stripped core, and trailing
whitespace. -/
lemma pyStrip_decomp (l : List Char) :
    ∃ w1 w2, l = w1 ++ (pyStrip l ++ w2) ∧ (∀ c ∈ w1, pyWs c) ∧ (∀ c ∈ w2, pyWs c) := by
  refine ⟨l.takeWhile pyWs, ((l.dropWhile pyWs).reverse.takeWhile pyWs).reverse, ?_, ?_, ?_⟩
  · have h1 : l = l.takeWhile pyWs ++ l.dropWhile pyWs :=
      (List.takeWhile_append_dropWhile pyWs l).symm
    have h2 : (l.dropWhile pyWs).reverse =
        (l.dropWhile pyWs).reverse.takeWhile pyWs ++ (l.dropWhile pyWs).reverse.dropWhile pyWs :=
      (List.takeWhile_append_dropWhile pyWs _).symm
    have h3 : l.dropWhile pyWs =
        pyStrip l ++ ((l.dropWhile pyWs).reverse.takeWhile pyWs).reverse := by
      rw [pyStrip]
      conv_lhs => rw [← List.reverse_reverse (l.dropWhile pyWs), h2]
      rw [List.reverse_append]
    conv_lhs => rw [h1, h3]
  · exact fun c hc => List.mem_takeWhile_imp hc
  · exact fun c hc => List.mem_takeWhile_imp (List.mem_reverse.mp hc)

lemma removePct_append (a b : List Char) :
    removePct (a ++ b) = removePct a ++ removePct b := by
  simp [removePct]

lemma removePct_ws {w : List Char} (hw : ∀ c ∈ w, pyWs c) : removePct w = w :=
  List.filter_eq_self.mpr fun c hc => by
    simpa using (pyWs_facts (hw c hc)).2.2.2

lemma reSearchNum_pyStrip (x : List Char) :
    reSearchNum (pyStrip x) = reSearchNum x := by
  obtain ⟨w1, w2, hdecomp, hw1, hw2⟩ := pyStrip_decomp x
  conv_rhs => rw [hdecomp]
  rw [reSearchNum_ws_pre hw1, reSearchNum_append_ws hw2]

/-- The code cleans with `replace('%','').strip()`, the spec's wording
strips first and removes percent signs second; the search cannot tell the
difference. -/
lemma searchCode_eq_searchSpec (l : List Char) :
    reSearchNum (pyStrip (removePct l)) = reSearchNum (removePct (pyStrip l)) := by
  obtain ⟨w1, w2, hdecomp, hw1, hw2⟩ := pyStrip_decomp l
  have hsplit : removePct l = w1 ++ (removePct (pyStrip l) ++ w2) := by
    conv_lhs => rw [hdecomp]
    rw [removePct_append, removePct_append, removePct_ws hw1, removePct_ws hw2]
  rw [reSearchNum_pyStrip, hsplit, reSearchNum_ws_pre hw1, reSearchNum_append_ws hw2]

lemma subAt_iff {t m : List Char} {i : ℕ} :
    SubAt t i m ↔ i ≤ t.length ∧ m <+: t.drop i := by
  constructor
  · rintro ⟨pre, suf, rfl, rfl⟩
    refine ⟨by simp, ?_⟩
    rw [List.append_assoc, List.drop_left]
    exact ⟨suf, rfl⟩
  · rintro ⟨hi, suf, hsuf⟩
    refine ⟨t.take i, suf, ?_, ?_⟩
    · rw [List.append_assoc, hsuf, List.take_append_drop]
    · simpa using Nat.min_eq_left hi

/-- The cleaning order as the spec words it: strip surrounding whitespace,
then remove percent signs. -/
def specCleaned (s : String) : List Char := removePct (pyStrip s.data)

/-- C1: For every string cell, `extract_numeric` strips surrounding
whitespace, removes percent signs, and returns the first left-to-right
substring matching an optional sign followed by digits with an optional
single decimal point (leftmost start, longest match there), parsed as a
number; if no such substring exists it returns absent (`pd.NA`).  A value
that is already a number is returned unchanged, and any other type yields
absent.  In particular `"$12.50 off"` ↦ `12.50`, `"-3 to 5"` ↦ `-3`,
`"12%"` ↦ `12`, `"-.5"` ↦ `-0.5`, and `"N/A"` ↦ absent. -/
theorem extract_numeric_spec :
    (∀ s : String,
      (∃ i m, SubAt (specCleaned s) i m ∧ IsNumLit m ∧
          (∀ j m', SubAt (specCleaned s) j m' → IsNumLit m' → i ≤ j) ∧
          (∀ m', SubAt (specCleaned s) i m' → IsNumLit m' → m'.length ≤ m.length) ∧
          extract_numeric (.str s) = .num (parseLit m)) ∨
      ((∀ j m', SubAt (specCleaned s) j m' → ¬ IsNumLit m') ∧
          extract_numeric (.str s) = .pdna)) ∧
    (∀ q, extract_numeric (.num q) = .num q) ∧
    extract_numeric .nan = .nan ∧
    extract_numeric .pdna = .pdna ∧
    extract_numeric .other = .pdna ∧
    extract_numeric (.str "$12.50 off") = .num (25/2) ∧
    extract_numeric (.str "-3 to 5") = .num (-3) ∧
    extract_numeric (.str "12%") = .num 12 ∧
    extract_numeric (.str "-.5") = .num (-1/2) ∧
    extract_numeric (.str "N/A") = .pdna := by
  refine ⟨?_, fun q => rfl, rfl, rfl, rfl, ?_, rfl, rfl, ?_, rfl⟩
  · intro s
    cases hs : reSearchNum (specCleaned s) with
    | some m =>
      left
      obtain ⟨i, hi, hp, hl, hmax, hleft⟩ := reSearchNum_some hs
      refine ⟨i, m, subAt_iff.mpr ⟨hi, hp⟩, hl, ?_, ?_, ?_⟩
      · intro j m' hsub hlit
        by_contra hlt
        push_neg at hlt
        exact hleft j hlt m' (subAt_iff.mp hsub).2 hlit
      · intro m' hsub hlit
        exact hmax m' (subAt_iff.mp hsub).2 hlit
      · show (match reSearchNum (pyStrip (removePct s.data)) with
          | some m => Cell.num (parseLit m) | none => Cell.pdna) = Cell.num (parseLit m)
        rw [searchCode_eq_searchSpec s.data]
        rw [show removePct (pyStrip s.data) = specCleaned s from rfl, hs]
    | none =>
      right
      refine ⟨?_, ?_⟩
      · intro j m' hsub hlit
        exact reSearchNum_none hs j m' (subAt_iff.mp hsub).2 hlit
      · show (match reSearchNum (pyStrip (removePct s.data)) with
          | some m => Cell.num (parseLit m) | none => Cell.pdna) = Cell.pdna
        rw [searchCode_eq_searchSpec s.data]
        rw [show removePct (pyStrip s.data) = specCleaned s from rfl, hs]
  · rw [show extract_numeric (.str "$12.50 off")
      = Cell.num ((12 : ℚ) + (50 : ℚ) / (10 ^ 2 : ℚ)) from rfl]
    norm_num
  · rw [show extract_numeric (.str "-.5")
      = Cell.num (-((0 : ℚ) + (5 : ℚ) / (10 ^ 1 : ℚ))) from rfl]
    norm_num

/-! ## Header normalization (`clean_headers`, src/cleandb++.py lines 77-102)

The per-label transform chain mirrors the pandas `.str` pipeline:
1. `re.sub("[（）]", "()", ·)` — each fullwidth parenthesis becomes `"()"`;
2. `re.sub(r"\(.*?\)", "", ·)` — drop non-greedy parenthesized groups
   (`.` does not cross a newline);
3. `re.sub(r"[^a-zA-Z0-9_\s-]", "", ·)` — keep letters, digits, `_`,
   whitespace and `-`;
4. `.replace(" ", "_")` — only the space character;
5. `re.sub("_+", "_", ·)` — collapse underscore runs;
6. `.strip('_')`;
7. `.encode('ascii', 'ignore')` — drop non-ASCII code points.
Then empty labels become `"unnamed_column"` and duplicates get `_k`
suffixes from a per-label counter. -/

def fixWideParens : List Char → List Char
  | [] => []
  | c :: r => if c = '（' ∨ c = '）' then '(' :: ')' :: fixWideParens r else c :: fixWideParens r

/-- Scan to the first `')'`, failing on end of string or a newline
(`.` does not match `'\n'`). -/
def dropToClose : List Char → Option (List Char)
  | [] => none
  | c :: r => if c = ')' then some r else if c = '\n' then none else dropToClose r

lemma dropToClose_length : ∀ {l r2 : List Char}, dropToClose l = some r2 → r2.length < l.length := by
  intro l
  induction l with
  | nil => intro r2 h; simp [dropToClose] at h
  | cons c r ih =>
    intro r2 h
    rw [dropToClose] at h
    by_cases hc : c = ')'
    · rw [if_pos hc] at h
      obtain rfl : r = r2 := by simpa using h
      simp
    · rw [if_neg hc] at h
      by_cases hn : c = '\n'
      · rw [if_pos hn] at h; simp at h
      · rw [if_neg hn] at h
        exact Nat.lt_trans (ih h) (by simp)

/-- Fuel-based scanner so that it reduces by `decide`; the fuel is always
at least the list length, and a `dropToClose` step strictly shortens the
list, so the fuel never runs out. -/
def removeParensAux : ℕ → List Char → List Char
  | _, [] => []
  | 0, l => l
  | fuel + 1, c :: r =>
    if c = '(' then
      match dropToClose r with
      | some r2 => removeParensAux fuel r2
      | none => c :: removeParensAux fuel r
    else c :: removeParensAux fuel r

def removeParens (l : List Char) : List Char := removeParensAux l.length l

def isAsciiAlpha (c : Char) : Bool :=
  (65 ≤ c.toNat && c.toNat ≤ 90) || (97 ≤ c.toNat && c.toNat ≤ 122)

/-- The character class kept by step 3: `[a-zA-Z0-9_\s-]`. -/
def headerKeep (c : Char) : Bool :=
  isAsciiAlpha c || isDig c || c = '_' || pyWs c || c = '-'

def spaceToU (c : Char) : Char := if c = ' ' then '_' else c

/-- Collapse runs of underscores; the flag records whether the previous
kept character was an underscore. -/
def collapseU : Bool → List Char → List Char
  | _, [] => []
  | prev, c :: r =>
    if c = '_' then (if prev then collapseU true r else '_' :: collapseU true r)
    else c :: collapseU false r

def isU (c : Char) : Bool := c = '_'

def stripUnderscores (l : List Char) : List Char :=
  ((l.dropWhile isU).reverse.dropWhile isU).reverse

def toAsciiOnly (l : List Char) : List Char := l.filter (fun c => c.toNat < 128)

def transformHeader (l : List Char) : List Char :=
  toAsciiOnly (stripUnderscores (collapseU false
    ((removeParens (fixWideParens l)).filter headerKeep |>.map spaceToU)))

def digitChar : ℕ → Char
  | 0 => '0' | 1 => '1' | 2 => '2' | 3 => '3' | 4 => '4'
  | 5 => '5' | 6 => '6' | 7 => '7' | 8 => '8' | _ => '9'

def natDigitsAux : ℕ → ℕ → List Char
  | 0, n => [digitChar (n % 10)]
  | fuel + 1, n => if n < 10 then [digitChar n] else natDigitsAux fuel (n / 10) ++ [digitChar (n % 10)]

/-- Decimal rendering of a natural number (Python `str(n)`). -/
def natDigits (n : ℕ) : List Char := natDigitsAux n n

def unnamedCol : List Char := "unnamed_column".data

def lookupCount (k : List Char) : List (List Char × ℕ) → Option ℕ
  | [] => none
  | (k', n) :: rest => if k = k' then some n else lookupCount k rest

def setCount (k : List Char) (v : ℕ) : List (List Char × ℕ) → List (List Char × ℕ)
  | [] => [(k, v)]
  | (k', n) :: rest => if k = k' then (k, v) :: rest else (k', n) :: setCount k v rest

/-- Empty-name fallback applied inside the dedup loop. -/
def tscol (c0 : List Char) : List Char := if c0 = [] then unnamedCol else c0

/-- The duplicate-resolution loop (lines 90-100): a dict of counts per
label; repeats get an incrementing `_k` suffix. -/
def dedupHeaders : List (List Char) → List (List Char × ℕ) → List (List Char)
  | [], _ => []
  | c0 :: rest, counts =>
    match lookupCount (tscol c0) counts with
    | some n => (tscol c0 ++ '_' :: natDigits (n + 1)) ::
        dedupHeaders rest (setCount (tscol c0) (n + 1) counts)
    | none => tscol c0 :: dedupHeaders rest (setCount (tscol c0) 0 counts)

def cleanHeaderNames (names : List (List Char)) : List (List Char) :=
  dedupHeaders (names.map transformHeader) []

/-! ### Facts about decimal rendering -/

lemma digitChar_isDig (n : ℕ) : isDig (digitChar n) := by
  rcases n with _|_|_|_|_|_|_|_|_|n <;> rfl

lemma natDigitsAux_digits : ∀ fuel n, ∀ c ∈ natDigitsAux fuel n, isDig c := by
  intro fuel
  induction fuel with
  | zero =>
    intro n c hc
    rw [natDigitsAux] at hc
    obtain rfl : c = digitChar (n % 10) := by simpa using hc
    exact digitChar_isDig _
  | succ fuel ih =>
    intro n c hc
    rw [natDigitsAux] at hc
    by_cases h10 : n < 10
    · rw [if_pos h10] at hc
      obtain rfl : c = digitChar n := by simpa using hc
      exact digitChar_isDig _
    · rw [if_neg h10] at hc
      rcases List.mem_append.mp hc with hc | hc
      · exact ih _ c hc
      · obtain rfl : c = digitChar (n % 10) := by simpa using hc
        exact digitChar_isDig _

lemma natDigits_digits (n : ℕ) : ∀ c ∈ natDigits n, isDig c :=
  natDigitsAux_digits n n

lemma natDigitsAux_ne_nil (fuel n : ℕ) : natDigitsAux fuel n ≠ [] := by
  cases fuel with
  | zero => simp [natDigitsAux]
  | succ fuel =>
    rw [natDigitsAux]
    by_cases h10 : n < 10
    · simp [h10]
    · simp [h10]

lemma natDigits_ne_nil (n : ℕ) : natDigits n ≠ [] := natDigitsAux_ne_nil n n

lemma digitsToNat_append_singleton (l : List Char) (c : Char) :
    digitsToNat (l ++ [c]) = 10 * digitsToNat l + (c.toNat - 48) := by
  rw [digitsToNat, digitsToNat, List.foldl_append]
  rfl

lemma digitChar_toNat {n : ℕ} (h : n < 10) : (digitChar n).toNat = 48 + n := by
  interval_cases n <;> rfl

lemma digitsToNat_natDigitsAux : ∀ fuel n, n ≤ fuel ∨ n < 10 →
    digitsToNat (natDigitsAux fuel n) = n := by
  intro fuel
  induction fuel with
  | zero =>
    intro n hn
    have h10 : n < 10 := by omega
    rw [natDigitsAux, Nat.mod_eq_of_lt h10]
    show 10 * 0 + ((digitChar n).toNat - 48) = n
    rw [digitChar_toNat h10]
    omega
  | succ fuel ih =>
    intro n hn
    rw [natDigitsAux]
    by_cases h10 : n < 10
    · rw [if_pos h10]
      show 10 * 0 + ((digitChar n).toNat - 48) = n
      rw [digitChar_toNat h10]
      omega
    · rw [if_neg h10, digitsToNat_append_singleton,
        ih (n / 10) (Or.inl (by omega)), digitChar_toNat (Nat.mod_lt n (by omega))]
      omega

lemma natDigits_inj {a b : ℕ} (h : natDigits a = natDigits b) : a = b := by
  have ha : digitsToNat (natDigits a) = a := digitsToNat_natDigitsAux a a (Or.inl le_rfl)
  have hb : digitsToNat (natDigits b) = b := digitsToNat_natDigitsAux b b (Or.inl le_rfl)
  rw [← ha, ← hb, h]

/-! ### Character-content lemmas for the transform chain -/

lemma mem_fixWideParens {l : List Char} {c : Char} (h : c ∈ fixWideParens l) :
    c ∈ l ∨ c = '(' ∨ c = ')' := by
  induction l with
  | nil => simp [fixWideParens] at h
  | cons a r ih =>
    rw [fixWideParens] at h
    by_cases ha : a = '（' ∨ a = '）'
    · rw [if_pos ha] at h
      rcases List.mem_cons.mp h with rfl | h
      · exact Or.inr (Or.inl rfl)
      rcases List.mem_cons.mp h with rfl | h
      · exact Or.inr (Or.inr rfl)
      · rcases ih h with h | h
        · exact Or.inl (.tail _ h)
        · exact Or.inr h
    · rw [if_neg ha] at h
      rcases List.mem_cons.mp h with rfl | h
      · exact Or.inl (.head _)
      · rcases ih h with h | h
        · exact Or.inl (.tail _ h)
        · exact Or.inr h

lemma mem_dropToClose : ∀ {l r2 : List Char}, dropToClose l = some r2 → ∀ c ∈ r2, c ∈ l := by
  intro l
  induction l with
  | nil => intro r2 h; simp [dropToClose] at h
  | cons a r ih =>
    intro r2 h c hc
    rw [dropToClose] at h
    by_cases ha : a = ')'
    · rw [if_pos ha] at h
      obtain rfl : r = r2 := by simpa using h
      exact .tail _ hc
    · rw [if_neg ha] at h
      by_cases hn : a = '\n'
      · rw [if_pos hn] at h; simp at h
      · rw [if_neg hn] at h
        exact .tail _ (ih h c hc)

lemma mem_removeParensAux : ∀ fuel (l : List Char), ∀ c ∈ removeParensAux fuel l, c ∈ l := by
  intro fuel
  induction fuel with
  | zero =>
    intro l c hc
    cases l with
    | nil => simpa [removeParensAux] using hc
    | cons a r => simpa [removeParensAux] using hc
  | succ fuel ih =>
    intro l c hc
    cases l with
    | nil => simpa [removeParensAux] using hc
    | cons a r =>
      rw [removeParensAux] at hc
      by_cases ha : a = '('
      · rw [if_pos ha] at hc
        rcases hd : dropToClose r with - | r2 <;> rw [hd] at hc
        · rcases List.mem_cons.mp hc with rfl | hc
          · exact .head _
          · exact .tail _ (ih r c hc)
        · exact .tail _ (mem_dropToClose hd c (ih r2 c hc))
      · rw [if_neg ha] at hc
        rcases List.mem_cons.mp hc with rfl | hc
        · exact .head _
        · exact .tail _ (ih r c hc)

lemma mem_collapseU : ∀ (b : Bool) (l : List Char), ∀ c ∈ collapseU b l, c ∈ l := by
  intro b l
  induction l generalizing b with
  | nil => intro c hc; simpa [collapseU] using hc
  | cons a r ih =>
    intro c hc
    rw [collapseU] at hc
    by_cases ha : a = '_'
    · rw [if_pos ha] at hc
      cases b with
      | true => exact .tail _ (ih true c (by simpa using hc))
      | false =>
        rcases (by simpa using hc : c = '_' ∨ c ∈ collapseU true r) with rfl | hc
        · exact ha ▸ List.mem_cons_self _ _
        · exact .tail _ (ih true c hc)
    · rw [if_neg ha] at hc
      rcases List.mem_cons.mp hc with rfl | hc
      · exact .head _
      · exact .tail _ (ih false c hc)

lemma mem_stripUnderscores {l : List Char} {c : Char} (h : c ∈ stripUnderscores l) : c ∈ l := by
  rw [stripUnderscores] at h
  have h1 := List.mem_reverse.mp h
  have h2 := ((List.dropWhile_suffix isU).mem h1)
  have h3 := List.mem_reverse.mp h2
  exact (List.dropWhile_suffix isU).mem h3

lemma mem_toAsciiOnly {l : List Char} {c : Char} (h : c ∈ toAsciiOnly l) :
    c ∈ l ∧ c.toNat < 128 := by
  have := List.mem_filter.mp h
  exact ⟨this.1, by simpa using this.2⟩

/-! ### Identity lemmas for already-normalized labels -/

lemma fixWideParens_id {l : List Char} (h : ∀ c ∈ l, c.toNat < 128) :
    fixWideParens l = l := by
  induction l with
  | nil => rfl
  | cons a r ih =>
    rw [fixWideParens, if_neg, ih fun c hc => h c (.tail _ hc)]
    rintro (rfl | rfl)
    · exact absurd (h _ (.head r)) (by decide)
    · exact absurd (h _ (.head r)) (by decide)

lemma removeParensAux_id : ∀ fuel (l : List Char), (∀ c ∈ l, c ≠ '(') →
    removeParensAux fuel l = l := by
  intro fuel
  induction fuel with
  | zero =>
    intro l h
    cases l with
    | nil => rfl
    | cons a r => rfl
  | succ fuel ih =>
    intro l h
    cases l with
    | nil => rfl
    | cons a r =>
      rw [removeParensAux, if_neg (h a (.head r)), ih r fun c hc => h c (.tail _ hc)]

lemma map_spaceToU_id {l : List Char} (h : ∀ c ∈ l, c ≠ ' ') : l.map spaceToU = l := by
  induction l with
  | nil => rfl
  | cons a r ih =>
    rw [List.map_cons, ih fun c hc => h c (.tail _ hc)]
    rw [show spaceToU a = a from if_neg (h a (.head r))]

/-- The no-double-underscore adjacency relation. -/
def RU (a b : Char) : Prop := ¬(a = '_' ∧ b = '_')

lemma collapseU_id : ∀ (l : List Char) (b : Bool), List.Chain' RU l →
    (b = true → ∀ c ∈ l.head?, c ≠ '_') → collapseU b l = l := by
  intro l
  induction l with
  | nil => intro b _ _; rfl
  | cons a r ih =>
    intro b hch hb
    by_cases ha : a = '_'
    · cases b with
      | true => exact absurd ha (hb rfl a (by simp))
      | false =>
        rw [collapseU, if_pos ha]
        simp only [Bool.false_eq_true, if_false]
        rw [ha]
        congr 1
        exact ih true (List.chain'_cons'.mp hch).2
          fun _ c hc hc' => (List.chain'_cons'.mp hch).1 c hc ⟨ha, hc'⟩
    · rw [collapseU, if_neg ha]
      congr 1
      exact ih false (List.chain'_cons'.mp hch).2 fun h => nomatch h

lemma dropWhile_id {p : Char → Bool} {l : List Char} (h : ∀ c ∈ l.head?, ¬ p c) :
    l.dropWhile p = l := by
  cases l with
  | nil => rfl
  | cons a r => rw [List.dropWhile_cons, if_neg (h a (by simp))]

lemma stripUnderscores_id {l : List Char} (h1 : ∀ c ∈ l.head?, c ≠ '_')
    (h2 : ∀ c ∈ l.getLast?, c ≠ '_') : stripUnderscores l = l := by
  rw [stripUnderscores, dropWhile_id (p := isU) (fun c hc hu => h1 c hc (by simpa [isU] using hu)),
    dropWhile_id (p := isU) ?_, List.reverse_reverse]
  intro c hc hu
  rw [List.head?_reverse] at hc
  exact h2 c hc (by simpa [isU] using hu)

lemma toAsciiOnly_id {l : List Char} (h : ∀ c ∈ l, c.toNat < 128) : toAsciiOnly l = l :=
  List.filter_eq_self.mpr fun c hc => by simpa using h c hc

/-! ### Shape invariants of normalized labels -/

instance : DecidableRel RU := fun a b => inferInstanceAs (Decidable ¬(a = '_' ∧ b = '_'))

lemma collapseU_head_true : ∀ l : List Char, (collapseU true l).head? ≠ some '_' := by
  intro l
  induction l with
  | nil => simp [collapseU]
  | cons a r ih =>
    by_cases ha : a = '_'
    · rw [collapseU, if_pos ha, if_pos rfl]
      exact ih
    · rw [collapseU, if_neg ha]
      simpa using ha

lemma collapseU_chain : ∀ (l : List Char) (b : Bool), List.Chain' RU (collapseU b l) := by
  intro l
  induction l with
  | nil => intro b; simp [collapseU]
  | cons a r ih =>
    intro b
    by_cases ha : a = '_'
    · cases b with
      | true =>
        rw [collapseU, if_pos ha, if_pos rfl]
        exact ih true
      | false =>
        rw [collapseU, if_pos ha]
        simp only [Bool.false_eq_true, if_false]
        refine List.chain'_cons'.mpr ⟨?_, ih true⟩
        intro y hy h2
        exact collapseU_head_true r (by rw [← h2.2]; exact Option.mem_def.mp hy)
    · rw [collapseU, if_neg ha]
      refine List.chain'_cons'.mpr ⟨?_, ih false⟩
      intro y hy h2
      exact ha h2.1

lemma chain'_dropWhile {R : Char → Char → Prop} {p : Char → Bool} {l : List Char}
    (h : List.Chain' R l) : List.Chain' R (l.dropWhile p) := by
  have h2 : List.Chain' R (l.takeWhile p ++ l.dropWhile p) := by
    rw [List.takeWhile_append_dropWhile]; exact h
  exact (List.chain'_append.mp h2).2.1

lemma RU_symm : ∀ a b : Char, RU a b → RU b a := fun _ _ h h2 => h ⟨h2.2, h2.1⟩

lemma chain'_reverse_RU {l : List Char} (h : List.Chain' RU l) :
    List.Chain' RU l.reverse := by
  rw [List.chain'_reverse]
  exact h.imp fun a b hab => RU_symm a b hab

lemma chain'_stripUnderscores {l : List Char} (h : List.Chain' RU l) :
    List.Chain' RU (stripUnderscores l) :=
  chain'_reverse_RU (chain'_dropWhile (chain'_reverse_RU (chain'_dropWhile h)))

lemma prefix_head? {w v : List Char} {c : Char} (h : w <+: v) (hc : w.head? = some c) :
    v.head? = some c := by
  obtain ⟨t, rfl⟩ := h
  cases w with
  | nil => simp at hc
  | cons a w' => simpa using hc

lemma stripUnderscores_head {l : List Char} : (stripUnderscores l).head? ≠ some '_' := by
  intro hc
  have hc2 : (l.dropWhile isU).head? = some '_' := by
    refine prefix_head? ?_ hc
    have h2 := List.reverse_prefix.mpr (List.dropWhile_suffix (l := (l.dropWhile isU).reverse) isU)
    rwa [List.reverse_reverse] at h2
  rcases hd : l.dropWhile isU with - | ⟨a, rest⟩
  · rw [hd] at hc2; simp at hc2
  · rw [hd] at hc2
    obtain rfl : a = '_' := by simpa using hc2
    have h3 := dropWhile_head_not hd
    simp [isU] at h3

lemma stripUnderscores_getLast {l : List Char} : (stripUnderscores l).getLast? ≠ some '_' := by
  intro hc
  rw [stripUnderscores, ← List.head?_reverse, List.reverse_reverse] at hc
  rcases hd : (l.dropWhile isU).reverse.dropWhile isU with - | ⟨a, rest⟩
  · rw [hd] at hc; simp at hc
  · rw [hd] at hc
    obtain rfl : a = '_' := by simpa using hc
    have h3 := dropWhile_head_not hd
    simp [isU] at h3

/-- Shape of every label the normalizer can emit (for ASCII input): only
kept characters other than the space, all ASCII, no boundary underscore,
no underscore run. -/
def GoodLabel (l : List Char) : Prop :=
  l ≠ [] ∧ (∀ c ∈ l, headerKeep c ∧ c ≠ ' ' ∧ c.toNat < 128) ∧
  l.head? ≠ some '_' ∧ l.getLast? ≠ some '_' ∧ List.Chain' RU l

/-- Executable check for the no-double-underscore chain. -/
def noDoubleUB : List Char → Bool
  | [] => true
  | [_] => true
  | a :: b :: r => !(a = '_' && b = '_') && noDoubleUB (b :: r)

lemma noDoubleUB_iff : ∀ l, noDoubleUB l = true ↔ List.Chain' RU l := by
  intro l
  match l with
  | [] => simp [noDoubleUB]
  | [a] => simp [noDoubleUB]
  | a :: b :: r =>
    rw [noDoubleUB, List.chain'_cons, ← noDoubleUB_iff (b :: r)]
    simp only [Bool.and_eq_true, Bool.not_eq_true', Bool.and_eq_false_iff,
      decide_eq_false_iff_not]
    constructor
    · rintro ⟨h1, h2⟩
      refine ⟨fun h3 => ?_, h2⟩
      rcases h1 with h1 | h1
      · exact h1 h3.1
      · exact h1 h3.2
    · rintro ⟨h1, h2⟩
      refine ⟨?_, h2⟩
      by_cases ha : a = '_'
      · exact Or.inr fun hb => h1 ⟨ha, hb⟩
      · exact Or.inl ha

instance : DecidablePred GoodLabel := fun l =>
  decidable_of_iff
    (l ≠ [] ∧ (∀ c ∈ l, headerKeep c ∧ c ≠ ' ' ∧ c.toNat < 128) ∧
      l.head? ≠ some '_' ∧ l.getLast? ≠ some '_' ∧ noDoubleUB l = true)
    (by rw [GoodLabel]
        exact and_congr_right fun _ => and_congr_right fun _ => and_congr_right fun _ =>
          and_congr_right fun _ => noDoubleUB_iff l)

lemma transformHeader_chars {l : List Char} :
    ∀ c ∈ transformHeader l, headerKeep c ∧ c ≠ ' ' ∧ c.toNat < 128 := by
  intro c hc
  rw [transformHeader] at hc
  obtain ⟨hc1, hlt⟩ := mem_toAsciiOnly hc
  have hc2 := mem_stripUnderscores hc1
  have hc3 := mem_collapseU false _ c hc2
  obtain ⟨c', hc', rfl⟩ := List.mem_map.mp hc3
  have hk : headerKeep c' := (List.mem_filter.mp hc').2
  by_cases hsp : c' = ' '
  · subst hsp
    exact ⟨by decide, by decide, hlt⟩
  · rw [show spaceToU c' = c' from if_neg hsp] at hlt ⊢
    exact ⟨hk, hsp, hlt⟩

lemma transformHeader_eq_of_ascii {l : List Char} (hascii : ∀ c ∈ l, c.toNat < 128) :
    transformHeader l = stripUnderscores (collapseU false
      (((removeParens (fixWideParens l)).filter headerKeep).map spaceToU)) := by
  rw [transformHeader]
  apply toAsciiOnly_id
  intro c hc
  have hc2 := mem_stripUnderscores hc
  have hc3 := mem_collapseU false _ c hc2
  obtain ⟨c', hc', rfl⟩ := List.mem_map.mp hc3
  have hmem : c' ∈ removeParens (fixWideParens l) := (List.mem_filter.mp hc').1
  have hc'' := mem_removeParensAux _ _ c' hmem
  have h128 : c'.toNat < 128 := by
    rcases mem_fixWideParens hc'' with h | h | h
    · exact hascii c' h
    · subst h; decide
    · subst h; decide
  by_cases hsp : c' = ' '
  · subst hsp; decide
  · rwa [show spaceToU c' = c' from if_neg hsp]

lemma transformHeader_good {l : List Char} (hascii : ∀ c ∈ l, c.toNat < 128)
    (hne : transformHeader l ≠ []) : GoodLabel (transformHeader l) := by
  refine ⟨hne, transformHeader_chars, ?_, ?_, ?_⟩
  · rw [transformHeader_eq_of_ascii hascii]
    exact stripUnderscores_head
  · rw [transformHeader_eq_of_ascii hascii]
    exact stripUnderscores_getLast
  · rw [transformHeader_eq_of_ascii hascii]
    exact chain'_stripUnderscores (collapseU_chain _ false)

/-! ### The duplicate-resolution loop -/

lemma lookupCount_setCount_self (k : List Char) (v : ℕ) :
    ∀ counts, lookupCount k (setCount k v counts) = some v := by
  intro counts
  induction counts with
  | nil => simp [setCount, lookupCount]
  | cons p rest ih =>
    obtain ⟨k', n⟩ := p
    rw [setCount]
    by_cases hk : k = k'
    · rw [if_pos hk, lookupCount, if_pos rfl]
    · rw [if_neg hk, lookupCount, if_neg hk]
      exact ih

lemma lookupCount_setCount_other {k k' : List Char} (h : k' ≠ k) (v : ℕ) :
    ∀ counts, lookupCount k' (setCount k v counts) = lookupCount k' counts := by
  intro counts
  induction counts with
  | nil => simp [setCount, lookupCount, h]
  | cons p rest ih =>
    obtain ⟨k0, n⟩ := p
    rw [setCount]
    by_cases hk : k = k0
    · rw [if_pos hk, lookupCount, if_neg h, lookupCount, if_neg (fun he => h (he.trans hk.symm))]
    · rw [if_neg hk, lookupCount, lookupCount]
      by_cases h2 : k' = k0
      · rw [if_pos h2, if_pos h2]
      · rw [if_neg h2, if_neg h2]
        exact ih

lemma tscol_ne_nil (c0 : List Char) : tscol c0 ≠ [] := by
  rw [tscol]
  by_cases h : c0 = []
  · rw [if_pos h]; decide
  · rw [if_neg h]; exact h

/-- Decidable test: `t` has the shape `t' ++ "_" ++ digits`. -/
def suffClash (t t' : List Char) : Bool :=
  decide (t'.length + 1 < t.length) &&
  decide (t.take (t'.length + 1) = t' ++ ['_']) &&
  (t.drop (t'.length + 1)).all isDig

/-- The duplicate-suffixing scheme is collision-free only when no label
looks like another label plus an underscore-digit suffix. -/
def NoSuffixCollision (bases : List (List Char)) : Prop :=
  ∀ t ∈ bases, ∀ t' ∈ bases, suffClash t t' = false

instance : DecidablePred NoSuffixCollision := fun bases =>
  inferInstanceAs (Decidable (∀ t ∈ bases, ∀ t' ∈ bases, suffClash t t' = false))

lemma suffClash_of_eq {t t' d : List Char} (he : t = t' ++ '_' :: d) (hne : d ≠ [])
    (hd : ∀ c ∈ d, isDig c) : suffClash t t' = true := by
  subst he
  have hsplit : t' ++ '_' :: d = (t' ++ ['_']) ++ d := by simp
  have h1 : t'.length + 1 < (t' ++ '_' :: d).length := by
    have := List.length_pos.mpr hne
    simp only [List.length_append, List.length_cons]
    omega
  have htake : (t' ++ '_' :: d).take (t'.length + 1) = t' ++ ['_'] := by
    rw [hsplit, List.take_left' (by simp)]
  have hdrop : (t' ++ '_' :: d).drop (t'.length + 1) = d := by
    rw [hsplit, List.drop_left' (by simp)]
  rw [suffClash, htake, hdrop]
  simp only [Bool.and_eq_true, decide_eq_true_eq, List.all_eq_true]
  exact ⟨⟨h1, trivial⟩, hd⟩

lemma sep_digits_inj_rev : ∀ (x x' u u' : List Char), (∀ c ∈ x, isDig c) →
    (∀ c ∈ x', isDig c) → x ++ '_' :: u = x' ++ '_' :: u' → x = x' ∧ u = u' := by
  intro x
  induction x with
  | nil =>
    intro x' u u' hx hx' he
    cases x' with
    | nil =>
      rw [List.nil_append, List.nil_append] at he
      injection he with h1 h2
      exact ⟨rfl, h2⟩
    | cons b y' =>
      rw [List.nil_append, List.cons_append] at he
      injection he with h1 h2
      have hb := hx' b (.head y')
      rw [← h1] at hb
      simp [isDig] at hb
  | cons a y ih =>
    intro x' u u' hx hx' he
    cases x' with
    | nil =>
      rw [List.cons_append, List.nil_append] at he
      injection he with h1 h2
      have hb := hx a (.head y)
      rw [h1] at hb
      simp [isDig] at hb
    | cons b y' =>
      rw [List.cons_append, List.cons_append] at he
      injection he with h1 h2
      obtain ⟨hy, hu⟩ := ih y' u u' (fun c hc => hx c (.tail _ hc))
        (fun c hc => hx' c (.tail _ hc)) h2
      exact ⟨by rw [h1, hy], hu⟩

lemma suffix_label_inj {t t' : List Char} {j k : ℕ}
    (h : t ++ '_' :: natDigits j = t' ++ '_' :: natDigits k) : t = t' ∧ j = k := by
  have hrev : (natDigits j).reverse ++ '_' :: t.reverse
      = (natDigits k).reverse ++ '_' :: t'.reverse := by
    have h2 := congrArg List.reverse h
    simpa [List.reverse_append, List.append_assoc] using h2
  obtain ⟨hd, ht⟩ := sep_digits_inj_rev _ _ _ _
    (fun c hc => natDigits_digits j c (List.mem_reverse.mp hc))
    (fun c hc => natDigits_digits k c (List.mem_reverse.mp hc)) hrev
  refine ⟨?_, natDigits_inj ?_⟩
  · have h3 := congrArg List.reverse ht
    simpa using h3
  · have h3 := congrArg List.reverse hd
    simpa using h3

/-- What an output of the dedup loop can be, relative to the remaining
labels and the current count table. -/
def DedupSpec (rest : List (List Char)) (counts : List (List Char × ℕ))
    (out : List Char) : Prop :=
  (out ∈ rest.map tscol ∧ lookupCount out counts = none) ∨
  (∃ t n, t ∈ rest.map tscol ∧ out = t ++ '_' :: natDigits (n + 1) ∧
    (∀ v, lookupCount t counts = some v → v < n + 1))

lemma dedup_nodup : ∀ (rest : List (List Char)) counts,
    NoSuffixCollision (rest.map tscol) →
    (dedupHeaders rest counts).Nodup ∧
    ∀ out ∈ dedupHeaders rest counts, DedupSpec rest counts out := by
  intro rest
  induction rest with
  | nil =>
    intro counts H
    refine ⟨by simp [dedupHeaders], ?_⟩
    intro out hout
    simp [dedupHeaders] at hout
  | cons c0 r ih =>
    intro counts H
    have Hr : NoSuffixCollision (r.map tscol) := fun t ht t' ht' =>
      H t (by rw [List.map_cons]; exact .tail _ ht) t' (by rw [List.map_cons]; exact .tail _ ht')
    rcases hl : lookupCount (tscol c0) counts with - | n
    · -- first occurrence of this label
      simp only [dedupHeaders, hl]
      obtain ⟨hnd, hmem⟩ := ih (setCount (tscol c0) 0 counts) Hr
      constructor
      · rw [List.nodup_cons]
        refine ⟨?_, hnd⟩
        intro hin
        rcases hmem _ hin with ⟨hmap, hlk⟩ | ⟨t, m, htm, heq, hcnt⟩
        · rw [lookupCount_setCount_self] at hlk
          exact absurd hlk (by simp)
        · have h1 : tscol c0 ∈ (c0 :: r).map tscol := by
            rw [List.map_cons]; exact .head _
          have h2 : t ∈ (c0 :: r).map tscol := by
            rw [List.map_cons]; exact .tail _ htm
          have h3 := H _ h1 _ h2
          rw [suffClash_of_eq heq (natDigits_ne_nil _) (natDigits_digits _)] at h3
          exact absurd h3 (by simp)
      · intro out hout
        rcases List.mem_cons.mp hout with rfl | hout
        · exact Or.inl ⟨by rw [List.map_cons]; exact .head _, hl⟩
        · rcases hmem _ hout with ⟨hmap, hlk⟩ | ⟨t, m, htm, heq, hcnt⟩
          · have hne : out ≠ tscol c0 := by
              intro he
              rw [he, lookupCount_setCount_self] at hlk
              exact absurd hlk (by simp)
            refine Or.inl ⟨by rw [List.map_cons]; exact .tail _ hmap, ?_⟩
            rwa [lookupCount_setCount_other hne] at hlk
          · refine Or.inr ⟨t, m, by rw [List.map_cons]; exact .tail _ htm, heq, ?_⟩
            intro v hv
            by_cases hteq : t = tscol c0
            · rw [hteq, hl] at hv
              exact absurd hv (by simp)
            · exact hcnt v (by rwa [lookupCount_setCount_other hteq])
    · -- repeated label: emit a numbered suffix
      simp only [dedupHeaders, hl]
      obtain ⟨hnd, hmem⟩ := ih (setCount (tscol c0) (n + 1) counts) Hr
      constructor
      · rw [List.nodup_cons]
        refine ⟨?_, hnd⟩
        intro hin
        rcases hmem _ hin with ⟨hmap, hlk⟩ | ⟨t, m, htm, heq, hcnt⟩
        · have h1 : tscol c0 ++ '_' :: natDigits (n + 1) ∈ (c0 :: r).map tscol := by
            rw [List.map_cons]; exact .tail _ hmap
          have h2 : tscol c0 ∈ (c0 :: r).map tscol := by
            rw [List.map_cons]; exact .head _
          have h3 := H _ h1 _ h2
          rw [suffClash_of_eq rfl (natDigits_ne_nil _) (natDigits_digits _)] at h3
          exact absurd h3 (by simp)
        · obtain ⟨hteq, hnm⟩ := suffix_label_inj heq
          have hcv := hcnt (n + 1) (by rw [← hteq, lookupCount_setCount_self])
          omega
      · intro out hout
        rcases List.mem_cons.mp hout with rfl | hout
        · refine Or.inr ⟨tscol c0, n, by rw [List.map_cons]; exact .head _, rfl, ?_⟩
          intro v hv
          rw [hl] at hv
          injection hv with hv'
          omega
        · rcases hmem _ hout with ⟨hmap, hlk⟩ | ⟨t, m, htm, heq, hcnt⟩
          · have hne : out ≠ tscol c0 := by
              intro he
              rw [he, lookupCount_setCount_self] at hlk
              exact absurd hlk (by simp)
            refine Or.inl ⟨by rw [List.map_cons]; exact .tail _ hmap, ?_⟩
            rwa [lookupCount_setCount_other hne] at hlk
          · refine Or.inr ⟨t, m, by rw [List.map_cons]; exact .tail _ htm, heq, ?_⟩
            intro v hv
            by_cases hteq : t = tscol c0
            · have h4 := hcnt (n + 1) (by rw [hteq, lookupCount_setCount_self])
              rw [hteq, hl] at hv
              injection hv with hv'
              omega
            · exact hcnt v (by rwa [lookupCount_setCount_other hteq])

/-! ### Shape of all emitted labels -/

lemma isDig_char_facts {c : Char} (h : isDig c = true) :
    headerKeep c ∧ c ≠ ' ' ∧ c.toNat < 128 ∧ c ≠ '_' := by
  have hn : 48 ≤ c.toNat ∧ c.toNat ≤ 57 := by simpa [isDig] using h
  refine ⟨by simp [headerKeep, h], ?_, by omega, ?_⟩
  · rintro rfl
    exact absurd hn (by decide)
  · rintro rfl
    exact absurd hn (by decide)

lemma chain'_of_no_underscore {l : List Char} (h : ∀ c ∈ l, c ≠ '_') :
    List.Chain' RU l := by
  induction l with
  | nil => exact List.chain'_nil
  | cons a r ih =>
    exact List.chain'_cons'.mpr
      ⟨fun y hy h2 => h a (.head r) h2.1, ih fun c hc => h c (.tail _ hc)⟩

lemma goodLabel_suffix {t : List Char} (h : GoodLabel t) (k : ℕ) :
    GoodLabel (t ++ '_' :: natDigits k) := by
  obtain ⟨hne, hchars, hhead, hlast, hchain⟩ := h
  obtain ⟨cl, hcl⟩ : ∃ cl, (natDigits k).getLast? = some cl := by
    cases hh : (natDigits k).getLast? with
    | some cl => exact ⟨cl, rfl⟩
    | none => exact absurd (List.getLast?_eq_none_iff.mp hh) (natDigits_ne_nil k)
  have hclmem : cl ∈ natDigits k := by
    rw [← List.head?_reverse] at hcl
    exact List.mem_reverse.mp (List.mem_of_mem_head? hcl)
  have hcldig := natDigits_digits k cl hclmem
  refine ⟨by simp, ?_, ?_, ?_, ?_⟩
  · intro c hc
    rcases List.mem_append.mp hc with hc | hc
    · exact hchars c hc
    · rcases List.mem_cons.mp hc with rfl | hc
      · exact ⟨by decide, by decide, by decide⟩
      · have h2 := isDig_char_facts (natDigits_digits k c hc)
        exact ⟨h2.1, h2.2.1, h2.2.2.1⟩
  · cases t with
    | nil => exact absurd rfl hne
    | cons a t' => simpa using hhead
  · rw [List.getLast?_append]
    have h2 : ('_' :: natDigits k).getLast? = some cl := by
      rw [List.getLast?_cons, hcl]
      rfl
    rw [h2]
    intro h3
    obtain rfl : cl = '_' := by simpa using h3
    exact (isDig_char_facts hcldig).2.2.2 rfl
  · rw [List.chain'_append]
    refine ⟨hchain, ?_, ?_⟩
    · refine List.chain'_cons'.mpr ⟨?_, chain'_of_no_underscore ?_⟩
      · intro y hy h2
        exact (isDig_char_facts (natDigits_digits k y (List.mem_of_mem_head? hy))).2.2.2 h2.2
      · exact fun c hc => (isDig_char_facts (natDigits_digits k c hc)).2.2.2
    · intro x hx y hy h2
      exact hlast (by rw [Option.mem_def.mp hx, h2.1])

lemma goodLabel_tscol {c0 : List Char} (h : c0 ≠ [] → GoodLabel c0) :
    GoodLabel (tscol c0) := by
  rw [tscol]
  by_cases hc : c0 = []
  · rw [if_pos hc]
    decide
  · rw [if_neg hc]
    exact h hc

lemma dedup_good : ∀ (rest : List (List Char)) counts,
    (∀ n ∈ rest, n ≠ [] → GoodLabel n) →
    ∀ out ∈ dedupHeaders rest counts, GoodLabel out := by
  intro rest
  induction rest with
  | nil =>
    intro counts _ out hout
    simp [dedupHeaders] at hout
  | cons c0 r ih =>
    intro counts hgood out hout
    have hg0 : GoodLabel (tscol c0) := goodLabel_tscol (hgood c0 (.head r))
    have hgr : ∀ n ∈ r, n ≠ [] → GoodLabel n := fun n hn => hgood n (.tail _ hn)
    rcases hl : lookupCount (tscol c0) counts with - | n <;>
      simp only [dedupHeaders, hl] at hout
    · rcases List.mem_cons.mp hout with rfl | hout
      · exact hg0
      · exact ih _ hgr out hout
    · rcases List.mem_cons.mp hout with rfl | hout
      · exact goodLabel_suffix hg0 (n + 1)
      · exact ih _ hgr out hout

lemma dedupHeaders_ne_nil : ∀ (rest : List (List Char)) counts,
    ∀ out ∈ dedupHeaders rest counts, out ≠ [] := by
  intro rest
  induction rest with
  | nil =>
    intro counts out hout
    simp [dedupHeaders] at hout
  | cons c0 r ih =>
    intro counts out hout
    rcases hl : lookupCount (tscol c0) counts with - | n <;>
      simp only [dedupHeaders, hl] at hout
    · rcases List.mem_cons.mp hout with rfl | hout
      · exact tscol_ne_nil c0
      · exact ih _ out hout
    · rcases List.mem_cons.mp hout with rfl | hout
      · exact List.append_ne_nil_of_right_ne_nil _ (List.cons_ne_nil _ _)
      · exact ih _ out hout

/-! ### Idempotence ingredients -/

lemma map_fix {α : Type} {f : α → α} : ∀ l : List α, (∀ x ∈ l, f x = x) → l.map f = l := by
  intro l
  induction l with
  | nil => intro _; rfl
  | cons a r ih =>
    intro h
    rw [List.map_cons, h a (.head r), ih fun x hx => h x (.tail _ hx)]

lemma transformHeader_fix {t : List Char} (h : GoodLabel t) : transformHeader t = t := by
  obtain ⟨hne, hchars, hhead, hlast, hchain⟩ := h
  have hascii : ∀ c ∈ t, c.toNat < 128 := fun c hc => (hchars c hc).2.2
  have hnp : ∀ c ∈ t, c ≠ '(' := by
    intro c hc hc'
    have h2 := (hchars c hc).1
    rw [hc'] at h2
    exact absurd h2 (by decide)
  rw [transformHeader, fixWideParens_id hascii, removeParens, removeParensAux_id _ _ hnp,
    List.filter_eq_self.mpr (fun c hc => (hchars c hc).1),
    map_spaceToU_id (fun c hc => (hchars c hc).2.1),
    collapseU_id t false hchain (fun h => nomatch h),
    stripUnderscores_id ?_ ?_, toAsciiOnly_id hascii]
  · intro c hc hc'
    exact hhead (by rw [← hc']; exact Option.mem_def.mp hc)
  · intro c hc hc'
    exact hlast (by rw [← hc']; exact Option.mem_def.mp hc)

lemma dedup_id : ∀ (ls : List (List Char)) counts,
    (∀ l ∈ ls, l ≠ []) → ls.Nodup → (∀ l ∈ ls, lookupCount l counts = none) →
    dedupHeaders ls counts = ls := by
  intro ls
  induction ls with
  | nil => intro counts _ _ _; rfl
  | cons c0 r ih =>
    intro counts hne hnd hlk
    have h0 : tscol c0 = c0 := if_neg (hne c0 (.head r))
    rcases hl : lookupCount (tscol c0) counts with - | n
    · simp only [dedupHeaders, hl]
      rw [h0]
      congr 1
      refine ih _ (fun l hl2 => hne l (.tail _ hl2)) (List.nodup_cons.mp hnd).2 ?_
      intro l hlmem
      have hlc : l ≠ c0 := fun he => (List.nodup_cons.mp hnd).1 (he ▸ hlmem)
      rw [lookupCount_setCount_other hlc]
      exact hlk l (.tail _ hlmem)
    · rw [h0, hlk c0 (.head r)] at hl
      exact absurd hl (by simp)

/-! ## Claim theorems about header normalization -/

/-- C3 counterexample: The claim "header normalization never produces
duplicate labels" fails: on input `["a", "a_1", "a"]` the dedup counter
turns the second `"a"` into `"a_1"`, which collides with the existing
label `"a_1"`. -/
theorem clean_headers_duplicate_cx :
    cleanHeaderNames ["a".data, "a_1".data, "a".data]
      = ["a".data, "a_1".data, "a_1".data] ∧
    ¬ (cleanHeaderNames ["a".data, "a_1".data, "a".data]).Nodup := by
  constructor
  · decide
  · decide

/-- C3 amended: Every label produced by header normalization is
non-empty; and the output labels are pairwise distinct provided no
normalized label has the shape of another normalized label followed by an
underscore and digits (the collision the counterexample exploits). -/
theorem clean_headers_unique_nonempty :
    ∀ names : List (List Char),
      (∀ out ∈ cleanHeaderNames names, out ≠ []) ∧
      (NoSuffixCollision ((names.map transformHeader).map tscol) →
        (cleanHeaderNames names).Nodup) :=
  fun names =>
    ⟨dedupHeaders_ne_nil _ [], fun H => (dedup_nodup (names.map transformHeader) [] H).1⟩

theorem clean_headers_unique_nonempty_witness :
    NoSuffixCollision (((["Revenue ($)".data, "Notes".data].map transformHeader)).map tscol) ∧
    (cleanHeaderNames ["Revenue ($)".data, "Notes".data]).Nodup ∧
    (∀ out ∈ cleanHeaderNames ["Revenue ($)".data, "Notes".data], out ≠ []) := by
  refine ⟨by decide, ?_, (clean_headers_unique_nonempty _).1⟩
  exact (clean_headers_unique_nonempty ["Revenue ($)".data, "Notes".data]).2 (by decide)

/-- C4 counterexample: Header normalization is not idempotent: the
output of `["a", "a_1", "a"]` is `["a", "a_1", "a_1"]`, and normalizing
that again yields `["a", "a_1", "a_1_1"]`. -/
theorem clean_headers_idempotent_cx :
    cleanHeaderNames (cleanHeaderNames ["a".data, "a_1".data, "a".data])
      ≠ cleanHeaderNames ["a".data, "a_1".data, "a".data] := by
  decide

/-- C4 amended: Header normalization is idempotent on every label
sequence made of ASCII characters whose normalization is duplicate-free
(re-normalizing such an output returns it unchanged); idempotence can fail
exactly when the dedup counter manufactured a colliding label. -/
theorem clean_headers_idempotent :
    ∀ names : List (List Char), (∀ n ∈ names, ∀ c ∈ n, c.toNat < 128) →
      (cleanHeaderNames names).Nodup →
      cleanHeaderNames (cleanHeaderNames names) = cleanHeaderNames names := by
  intro names hascii hnd
  have hgood : ∀ out ∈ cleanHeaderNames names, GoodLabel out := by
    refine dedup_good _ [] ?_
    intro n hn hne
    obtain ⟨x, hx, rfl⟩ := List.mem_map.mp hn
    exact transformHeader_good (hascii x hx) hne
  rw [cleanHeaderNames, map_fix _ (fun x hx => transformHeader_fix (hgood x hx))]
  refine dedup_id _ [] (fun l hl => (hgood l hl).1) hnd ?_
  intro l _
  rfl

theorem clean_headers_idempotent_witness :
    cleanHeaderNames (cleanHeaderNames ["Revenue ($)".data, "Notes".data])
      = cleanHeaderNames ["Revenue ($)".data, "Notes".data] :=
  clean_headers_idempotent ["Revenue ($)".data, "Notes".data] (by decide) (by decide)

/-- C5 counterexample: A normalized label can contain a hyphen: the
character class kept by the cleaning regex is `[a-zA-Z0-9_\s-]`, so
`"a-b"` normalizes to itself, refuting "only ASCII letters, digits and
underscores". -/
theorem clean_headers_hyphen_cx :
    cleanHeaderNames ["a-b".data] = ["a-b".data] ∧
    '-' ∈ "a-b".data ∧
    ¬ (isAsciiAlpha '-' || isDig '-' || '-' = '_') := by
  refine ⟨by decide, by decide, by decide⟩

/-- C5 amended: For ASCII input labels, every produced column label
consists only of kept characters (ASCII letters, digits, underscore,
hyphen, or whitespace) none of which is a space, all ASCII; it is never
empty, never starts or ends with an underscore, and never contains two
consecutive underscores. -/
theorem clean_headers_charset :
    ∀ names : List (List Char), (∀ n ∈ names, ∀ c ∈ n, c.toNat < 128) →
      ∀ out ∈ cleanHeaderNames names, GoodLabel out := by
  intro names hascii
  refine dedup_good _ [] ?_
  intro n hn hne
  obtain ⟨x, hx, rfl⟩ := List.mem_map.mp hn
  exact transformHeader_good (hascii x hx) hne

theorem clean_headers_charset_witness :
    GoodLabel ("Revenue".data) :=
  clean_headers_charset ["Revenue ($)".data, "Notes".data] (by decide)
    ("Revenue".data) (by decide)

/-! ## DataFrame model

A dataframe is a row count plus named columns.  A column records its
pandas dtype: `numeric` (int64/float64, holding only numbers and `nan`)
or `object` (anything).  `df.empty` in pandas is true when either axis
has length zero. -/

inductive Dtype where
  | numeric
  | object
  deriving DecidableEq, Repr

structure Column where
  dtype : Dtype
  cells : List Cell
  deriving DecidableEq, Repr

structure DataFrame where
  nrows : ℕ
  cols : List (List Char × Column)
  deriving DecidableEq, Repr

/-- Dataframe-level clean_headers: rename the columns. -/
def clean_headers (df : DataFrame) : DataFrame :=
  { df with cols := (cleanHeaderNames (df.cols.map Prod.fst)).zip (df.cols.map Prod.snd) }

/-- A string cell whose extraction yields `pd.NA` (the
`isinstance(x, str) and extract_numeric(x) is pd.NA` test of line 32). -/
def strNoNum : Cell → Bool
  | .str s => decide (extract_numeric (.str s) = Cell.pdna)
  | _ => false

/-- Dtype pandas infers for the series produced by
`df[column].apply(extract_numeric)`: the results are Python floats and
`pd.NA`; any `pd.NA` keeps the column `object`-typed, otherwise it
becomes `float64`. -/
def inferDtype (cells : List Cell) : Dtype :=
  if cells.any (· = Cell.pdna) then .object else .numeric

/-- Per-column clean_mixed_columns (lines 24-38): only for object
columns that are not entirely NA; the cleaned series replaces the column
when it contains any non-NA value, or when every original cell is a
string with no extractable number. -/
def clean_mixed_col (c : Column) : Column :=
  if c.dtype = Dtype.object ∧ ¬ c.cells.all Cell.isNA then
    let cleaned := c.cells.map extract_numeric
    if cleaned.any (fun x => ! x.isNA) ∨ c.cells.all strNoNum then
      ⟨inferDtype cleaned, cleaned⟩
    else c
  else c

def clean_mixed_columns (df : DataFrame) : DataFrame :=
  { df with cols := df.cols.map (fun p => (p.1, clean_mixed_col p.2)) }

/-- Python isinstance of int or float: finite numbers and `float('nan')` are
instances, `pd.NA`, strings and other objects are not. -/
def isNumInstance : Cell → Bool
  | .num _ => true
  | .nan => true
  | _ => false

/-- ASCII whitespace of the C tokenizer (isspace_ascii): space, tab,
newline, vertical tab, form feed, carriage return.  Narrower than the
code-point whitespace `pyWs` of `str.strip`. -/
def cWs (c : Char) : Bool :=
  c = ' ' || c = '\t' || c = '\n' || c.toNat = 11 || c.toNat = 12 || c = '\r'

/-- Result of the pandas float parser: a finite value (float rounding is
not modelled, values are exact rationals), or a signed infinity from the
inf spellings. -/
inductive PyNum where
  | fin (q : ℚ)
  | inf (neg : Bool)
  deriving DecidableEq, Repr

/-- The mantissa step of precise_xstrtod: digits, then an optional
decimal point with further digits, at least one digit in total.  Returns
the value and the unconsumed input. -/
def xMantissa (cs : List Char) : Option (ℚ × List Char) :=
  let ip := cs.takeWhile isDig
  match cs.dropWhile isDig with
  | '.' :: r2 =>
    let fp := r2.takeWhile isDig
    if ip.length + fp.length = 0 then none
    else some ((digitsToNat ip : ℚ) + (digitsToNat fp : ℚ) / (10 ^ fp.length : ℚ),
      r2.dropWhile isDig)
  | r1 =>
    if ip.length = 0 then none else some ((digitsToNat ip : ℚ), r1)

/-- Model of precise_xstrtod as floatify calls it (decimal point, sci
char e, no thousands separator, skip_trailing set): leading ASCII
whitespace, one optional sign, a mantissa, an optional exponent opened
by e/E with an optional sign and one to nineteen digits (the e commits:
a bare or overlong exponent fails the parse), trailing ASCII whitespace,
and the whole string must be consumed. -/
def precise_xstrtod (cs : List Char) : Option ℚ :=
  let p0 := cs.dropWhile cWs
  let sgn : Bool × List Char :=
    match p0 with
    | '-' :: r => (true, r)
    | '+' :: r => (false, r)
    | r => (false, r)
  match xMantissa sgn.2 with
  | none => none
  | some (m, p2) =>
    let cont : Option (ℚ × List Char) :=
      match p2 with
      | c :: r =>
        if c = 'e' || c = 'E' then
          let es : Bool × List Char :=
            match r with
            | '-' :: rr => (true, rr)
            | '+' :: rr => (false, rr)
            | rr => (false, rr)
          let ds := es.2.takeWhile isDig
          if ds.length = 0 || 19 < ds.length then none
          else some ((if es.1 then m / (10 ^ digitsToNat ds : ℚ)
              else m * (10 ^ digitsToNat ds : ℚ)),
            es.2.dropWhile isDig)
        else some (m, p2)
      | [] => some (m, [])
    match cont with
    | none => none
    | some (v, p3) =>
      if p3.dropWhile cWs = [] then some (if sgn.1 then -v else v) else none

/-- Lower-casing of an ASCII letter, for the strcasecmp of floatify. -/
def asciiLower (c : Char) : Char :=
  if 65 ≤ c.toNat ∧ c.toNat ≤ 90 then Char.ofNat (c.toNat + 32) else c

/-- The inf spellings floatify accepts when the numeric parse fails:
case-insensitive inf and infinity with one optional sign, compared
against the whole string with no surrounding whitespace. -/
def infForm (cs : List Char) : Option PyNum :=
  let l := cs.map asciiLower
  if l = "inf".data ∨ l = "+inf".data ∨ l = "infinity".data ∨ l = "+infinity".data then
    some (PyNum.inf false)
  else if l = "-inf".data ∨ l = "-infinity".data then some (PyNum.inf true)
  else none

/-- floatify (pandas parse_helper, reached through maybe_convert_numeric
for string elements): a full numeric parse, else an inf spelling, else
failure, which errors=coerce turns into NaN. -/
def floatify (cs : List Char) : Option PyNum :=
  match precise_xstrtod cs with
  | some q => some (PyNum.fin q)
  | none => infForm cs

/-- Cell-level model of `pd.to_numeric(·, errors='coerce')`, as far as
presence (notna) of the result goes: numbers pass through, `nan`,
`pd.NA`, the empty string and unparseable values coerce to NaN (absent),
and a string is parsed by `floatify` — an optionally signed decimal with
optional fraction and exponent inside optional ASCII whitespace, or an
inf spelling (so `"1e5"`, `"5."`, `".5"`, `"inf"`, `"-Infinity"` all
convert, while `"nan"` parses to NaN and so stays absent). -/
def coerceNumeric : Cell → Option PyNum
  | .num q => some (PyNum.fin q)
  | .str s => floatify s.data
  | _ => none

/-- Column retention test of `remove_fully_non_numeric_columns`
(lines 56-68): keep a column iff some cell is already a number instance
or some cell coerces to a number. -/
def colRetained (c : Column) : Bool :=
  c.cells.any isNumInstance || c.cells.any (fun x => (coerceNumeric x).isSome)

def remove_fully_non_numeric_columns (df : DataFrame) : DataFrame :=
  { df with cols := df.cols.filter (fun p => colRetained p.2) }

/-! ## Missing-value report (lines 104-136) -/

def countNACol (c : Column) : ℕ := (c.cells.filter Cell.isNA).length

structure ReportStats where
  total : ℕ
  missing : ℕ
  pct : ℚ
  perCol : List (List Char × ℚ)
  deriving DecidableEq, Repr

/-- The statistics the report writes, plus the dataframe handed back
unchanged (the reporter does not mutate its input). -/
def report_missing_values (df : DataFrame) : ReportStats × DataFrame :=
  (⟨df.nrows * df.cols.length,
    (df.cols.map (fun p => countNACol p.2)).sum,
    if 0 < df.nrows * df.cols.length then
      (((df.cols.map (fun p => countNACol p.2)).sum : ℚ) /
        ((df.nrows * df.cols.length : ℕ) : ℚ)) * 100
    else 0,
    if df.nrows = 0 ∨ df.cols = [] then []
    else df.cols.map (fun p => (p.1, ((countNACol p.2 : ℚ) / (df.nrows : ℚ)) * 100))⟩,
   df)

/-! ## Mean imputation (lines 139-160) -/

def cellNum? : Cell → Option ℚ
  | .num q => some q
  | _ => none

/-- Rounding to three decimal places (`.round(3)`); ties are not
distinguished by any claim. -/
def round3 (q : ℚ) : ℚ := (round (q * 1000) : ℤ) / 1000

def mean_imputation_col (c : Column) : Column :=
  match c.dtype with
  | .numeric =>
    if c.cells.any Cell.isNA then
      if (c.cells.filterMap cellNum?).length = 0 then c
      else
        ⟨c.dtype, c.cells.map (fun x =>
          match cellNum? x with
          | some q => Cell.num (round3 q)
          | none => Cell.num (round3 ((c.cells.filterMap cellNum?).sum /
              ((c.cells.filterMap cellNum?).length : ℚ))))⟩
    else
      ⟨c.dtype, c.cells.map (fun x =>
        match cellNum? x with
        | some q => Cell.num (round3 q)
        | none => x)⟩
  | .object => ⟨c.dtype, c.cells.map (fun x => if x.isNA then Cell.pdna else x)⟩

def mean_imputation (df : DataFrame) : DataFrame :=
  { df with cols := df.cols.map (fun p => (p.1, mean_imputation_col p.2)) }

/-! ## The per-file orchestrator (`process_single_csv_file`, lines 162-227),
from the point where the CSV has been loaded into a dataframe. -/

inductive Outcome where
  | skipped
  | placeholderEmpty
  | cleaned (stats : ReportStats) (final : DataFrame)
  deriving DecidableEq, Repr

def process_single (df : DataFrame) : Outcome :=
  if df.nrows = 0 ∨ df.cols = [] then Outcome.skipped
  else
    let df3 := remove_fully_non_numeric_columns (clean_mixed_columns (clean_headers df))
    if (df3.nrows = 0 ∨ df3.cols = []) ∨ df3.cols.length = 0 then Outcome.placeholderEmpty
    else Outcome.cleaned (report_missing_values df3).1 (mean_imputation df3)

/-- Rendering of one cell in the saved CSV (`na_rep='NA'`). -/
def renderCell : Cell → String
  | .num q => toString q
  | .nan => "NA"
  | .pdna => "NA"
  | .str s => s
  | .other => ""

def renderCol (c : Column) : List String := c.cells.map renderCell

/-! ## C2: zero-row inputs -/

/-- C2 counterexample: A zero-row dataframe (a header-only CSV) is
abandoned at the `df.empty` check right after loading (line 180): the
outcome is a skip, not the `_clean_empty` placeholder the claim
promises. -/
theorem empty_input_no_placeholder_cx :
    process_single ⟨0, [("a".data, ⟨Dtype.object, []⟩)]⟩ = Outcome.skipped ∧
    Outcome.skipped ≠ Outcome.placeholderEmpty := by
  exact ⟨by decide, by decide⟩

/-- C2 amended: A zero-row input is skipped entirely after loading:
no cleaned output of any kind (in particular no `_clean_empty`
placeholder), no report, and no imputation.  The placeholder outcome is
reserved for inputs with at least one row whose columns are all pruned
away. -/
theorem zero_rows_skipped :
    (∀ df : DataFrame, df.nrows = 0 → process_single df = Outcome.skipped) ∧
    (∀ df : DataFrame, process_single df = Outcome.placeholderEmpty →
      1 ≤ df.nrows ∧
      (remove_fully_non_numeric_columns (clean_mixed_columns (clean_headers df))).cols = []) := by
  constructor
  · intro df h
    rw [process_single, if_pos (Or.inl h)]
  · intro df h
    rw [process_single] at h
    by_cases h1 : df.nrows = 0 ∨ df.cols = []
    · rw [if_pos h1] at h
      exact absurd h (by decide)
    · rw [if_neg h1] at h
      push_neg at h1
      refine ⟨by omega, ?_⟩
      by_cases h2 : ((remove_fully_non_numeric_columns (clean_mixed_columns
            (clean_headers df))).nrows = 0 ∨
          (remove_fully_non_numeric_columns (clean_mixed_columns
            (clean_headers df))).cols = []) ∨
          (remove_fully_non_numeric_columns (clean_mixed_columns
            (clean_headers df))).cols.length = 0
      · have hnr : (remove_fully_non_numeric_columns (clean_mixed_columns
            (clean_headers df))).nrows = df.nrows := rfl
        rcases h2 with (h2 | h2) | h2
        · rw [hnr] at h2
          exact absurd h2 h1.1
        · exact h2
        · exact List.length_eq_zero.mp h2
      · rw [if_neg h2] at h
        exact Outcome.noConfusion h

theorem zero_rows_skipped_witness :
    process_single ⟨0, [("a".data, ⟨Dtype.object, []⟩), ("b".data, ⟨Dtype.numeric, []⟩)]⟩
      = Outcome.skipped :=
  zero_rows_skipped.1 _ rfl

/-! ## C6: when extraction replaces a column -/

/-- C6 counterexample: An all-text column with no extractable number
is not left as loaded: the second disjunct of line 32 fires and the
column is replaced by an all-`pd.NA` series. -/
theorem clean_mixed_all_text_replaced_cx :
    clean_mixed_columns ⟨1, [("a".data, ⟨Dtype.object, [Cell.str "N/A"]⟩)]⟩
      = ⟨1, [("a".data, ⟨Dtype.object, [Cell.pdna]⟩)]⟩ ∧
    clean_mixed_columns ⟨1, [("a".data, ⟨Dtype.object, [Cell.str "N/A"]⟩)]⟩
      ≠ ⟨1, [("a".data, ⟨Dtype.object, [Cell.str "N/A"]⟩)]⟩ := by
  exact ⟨by decide, by decide⟩

lemma clean_mixed_col_replaced {c : Column} (hdt : c.dtype = Dtype.object)
    (hna : ¬ c.cells.all Cell.isNA)
    (hcond : (c.cells.map extract_numeric).any (fun x => ! x.isNA) = true ∨
      c.cells.all strNoNum = true) :
    clean_mixed_col c = ⟨inferDtype (c.cells.map extract_numeric), c.cells.map extract_numeric⟩ := by
  rw [clean_mixed_col, if_pos ⟨hdt, hna⟩]
  simp only [if_pos hcond]

lemma clean_mixed_col_unchanged_of_not {c : Column}
    (hany : ¬ (c.cells.map extract_numeric).any (fun x => ! x.isNA) = true)
    (hstr : ¬ c.cells.all strNoNum = true) :
    clean_mixed_col c = c := by
  rw [clean_mixed_col]
  by_cases hg : c.dtype = Dtype.object ∧ ¬ c.cells.all Cell.isNA
  · rw [if_pos hg]
    simp only [if_neg (not_or.mpr ⟨hany, hstr⟩)]
  · rw [if_neg hg]

lemma clean_mixed_col_skip {c : Column}
    (h : ¬ (c.dtype = Dtype.object ∧ ¬ c.cells.all Cell.isNA)) :
    clean_mixed_col c = c := by
  rw [clean_mixed_col, if_neg h]

lemma all_strNoNum_not_allNA {c : Column} (hne : c.cells ≠ [])
    (hall : c.cells.all strNoNum = true) : ¬ c.cells.all Cell.isNA := by
  intro hna
  cases hcells : c.cells with
  | nil => exact hne hcells
  | cons x r =>
    rw [hcells] at hall hna
    have h1 := (List.all_eq_true.mp hall) x (.head r)
    have h2 := (List.all_eq_true.mp hna) x (.head r)
    cases x <;> simp [strNoNum, Cell.isNA] at h1 h2

/-- C6 amended: During the numeric-extraction stage a mixed/object
column is replaced by its cell-by-cell extraction when that extraction
yields at least one numeric value — but also when every cell is a string
with no extractable number, in which case the column becomes entirely
absent.  Only object columns whose extraction yields nothing and which
contain some non-string cell (and non-object or entirely-missing
columns) are left exactly as loaded. -/
theorem clean_mixed_spec :
    ∀ (df : DataFrame) (i : ℕ) (h : i < df.cols.length),
      (clean_mixed_columns df).nrows = df.nrows ∧
      ∃ h2 : i < (clean_mixed_columns df).cols.length,
        ((clean_mixed_columns df).cols[i]).1 = (df.cols[i]).1 ∧
        ((df.cols[i]).2.dtype = Dtype.object →
          ¬ (df.cols[i]).2.cells.all Cell.isNA →
          ((df.cols[i]).2.cells.map extract_numeric).any (fun x => ! x.isNA) = true →
          ((clean_mixed_columns df).cols[i]).2.cells
            = (df.cols[i]).2.cells.map extract_numeric) ∧
        ((df.cols[i]).2.dtype = Dtype.object →
          (df.cols[i]).2.cells ≠ [] →
          (df.cols[i]).2.cells.all strNoNum = true →
          ((clean_mixed_columns df).cols[i]).2.cells.all (· = Cell.pdna) = true) ∧
        (¬ ((df.cols[i]).2.cells.map extract_numeric).any (fun x => ! x.isNA) = true →
          ¬ (df.cols[i]).2.cells.all strNoNum = true →
          ((clean_mixed_columns df).cols[i]).2 = (df.cols[i]).2) ∧
        ((df.cols[i]).2.dtype ≠ Dtype.object →
          ((clean_mixed_columns df).cols[i]).2 = (df.cols[i]).2) ∧
        ((df.cols[i]).2.cells.all Cell.isNA = true →
          ((clean_mixed_columns df).cols[i]).2 = (df.cols[i]).2) := by
  intro df i h
  have hlen : (clean_mixed_columns df).cols.length = df.cols.length := List.length_map _ _
  have h2 : i < (clean_mixed_columns df).cols.length := by rw [hlen]; exact h
  have hget : (clean_mixed_columns df).cols[i]
      = ((df.cols[i]).1, clean_mixed_col (df.cols[i]).2) := by
    simp only [clean_mixed_columns, List.getElem_map]
  refine ⟨rfl, h2, ?_, ?_, ?_, ?_, ?_, ?_⟩
  · rw [hget]
  · intro hdt hna hany
    rw [hget]
    rw [clean_mixed_col_replaced hdt hna (Or.inl hany)]
  · intro hdt hne hall
    rw [hget]
    rw [clean_mixed_col_replaced hdt (all_strNoNum_not_allNA hne hall) (Or.inr hall)]
    rw [List.all_eq_true]
    intro y hy
    obtain ⟨x, hx, rfl⟩ := List.mem_map.mp hy
    have hs := (List.all_eq_true.mp hall) x hx
    cases x with
    | str s =>
      simp only [strNoNum, decide_eq_true_eq] at hs
      simpa [extract_numeric] using hs
    | num q => simp [strNoNum] at hs
    | nan => simp [strNoNum] at hs
    | pdna => simp [strNoNum] at hs
    | other => simp [strNoNum] at hs
  · intro hany hstr
    rw [hget]
    exact clean_mixed_col_unchanged_of_not hany hstr
  · intro hdt
    rw [hget]
    exact clean_mixed_col_skip fun hg => hdt hg.1
  · intro hna
    rw [hget]
    exact clean_mixed_col_skip fun hg => hg.2 hna

theorem clean_mixed_spec_witness :
    ∃ h0 : 0 < (clean_mixed_columns ⟨2, [("a".data,
        ⟨Dtype.object, [Cell.str "N/A", Cell.nan]⟩)]⟩).cols.length,
      ((clean_mixed_columns ⟨2, [("a".data,
          ⟨Dtype.object, [Cell.str "N/A", Cell.nan]⟩)]⟩).cols[0]).2
        = ⟨Dtype.object, [Cell.str "N/A", Cell.nan]⟩ := by
  have h := clean_mixed_spec ⟨2, [("a".data, ⟨Dtype.object, [Cell.str "N/A", Cell.nan]⟩)]⟩
    0 (by decide)
  obtain ⟨-, h2, -, -, -, hunch, -, -⟩ := h
  exact ⟨h2, hunch (by decide) (by decide)⟩

/-! ## C7: column pruning -/

/-- C7: The Column Classifier keeps a column iff some cell is already
of a numeric type (which includes `float('nan')`) or some cell coerces
directly to a number; retained columns appear in their original relative
order (the retained list is a sublist of the input), a qualifying column
is never dropped, and if no column qualifies the result has zero
columns.  The row count is untouched. -/
theorem remove_non_numeric_spec :
    ∀ df : DataFrame,
      (remove_fully_non_numeric_columns df).nrows = df.nrows ∧
      (remove_fully_non_numeric_columns df).cols.Sublist df.cols ∧
      (∀ p ∈ df.cols,
        (p ∈ (remove_fully_non_numeric_columns df).cols ↔
          (∃ x ∈ p.2.cells, isNumInstance x = true) ∨
          (∃ x ∈ p.2.cells, (coerceNumeric x).isSome = true))) ∧
      ((∀ p ∈ df.cols,
          ¬ ((∃ x ∈ p.2.cells, isNumInstance x = true) ∨
             (∃ x ∈ p.2.cells, (coerceNumeric x).isSome = true))) →
        (remove_fully_non_numeric_columns df).cols = []) := by
  intro df
  refine ⟨rfl, List.filter_sublist _, ?_, ?_⟩
  · intro p hp
    show p ∈ df.cols.filter (fun p => colRetained p.2) ↔ _
    rw [List.mem_filter]
    constructor
    · intro hmem
      have h2 := hmem.2
      simpa [colRetained, List.any_eq_true] using h2
    · intro hcrit
      refine ⟨hp, ?_⟩
      simpa [colRetained, List.any_eq_true] using hcrit
  · intro hnone
    show df.cols.filter (fun p => colRetained p.2) = []
    rw [List.filter_eq_nil_iff]
    intro p hp
    have h2 := hnone p hp
    simpa [colRetained, List.any_eq_true] using h2

theorem remove_non_numeric_spec_witness :
    ("n".data, (⟨Dtype.numeric, [Cell.nan]⟩ : Column))
      ∈ (remove_fully_non_numeric_columns ⟨1,
        [("t".data, ⟨Dtype.object, [Cell.str "x"]⟩),
         ("n".data, ⟨Dtype.numeric, [Cell.nan]⟩),
         ("s".data, ⟨Dtype.object, [Cell.str "1e5"]⟩)]⟩).cols ∧
    ("s".data, (⟨Dtype.object, [Cell.str "1e5"]⟩ : Column))
      ∈ (remove_fully_non_numeric_columns ⟨1,
        [("t".data, ⟨Dtype.object, [Cell.str "x"]⟩),
         ("n".data, ⟨Dtype.numeric, [Cell.nan]⟩),
         ("s".data, ⟨Dtype.object, [Cell.str "1e5"]⟩)]⟩).cols ∧
    (remove_fully_non_numeric_columns ⟨1,
        [("t".data, ⟨Dtype.object, [Cell.str "x"]⟩),
         ("n".data, ⟨Dtype.numeric, [Cell.nan]⟩),
         ("s".data, ⟨Dtype.object, [Cell.str "1e5"]⟩)]⟩).nrows = 1 := by
  have h := remove_non_numeric_spec ⟨1,
    [("t".data, ⟨Dtype.object, [Cell.str "x"]⟩),
     ("n".data, ⟨Dtype.numeric, [Cell.nan]⟩),
     ("s".data, ⟨Dtype.object, [Cell.str "1e5"]⟩)]⟩
  refine ⟨(h.2.2.1 _ (by decide)).mpr (Or.inl ⟨Cell.nan, by decide, rfl⟩),
    (h.2.2.1 _ (by decide)).mpr (Or.inr ⟨Cell.str "1e5", by decide, by decide⟩), h.1⟩

/-! ## C8: mean imputation -/

lemma mean_imputation_col_length (c : Column) :
    (mean_imputation_col c).cells.length = c.cells.length := by
  cases hdt : c.dtype
  · simp only [mean_imputation_col, hdt]
    split_ifs <;> simp
  · simp only [mean_imputation_col, hdt, List.length_map]

lemma isNA_cellNum_none {x : Cell} (h : Cell.isNA x = true) : cellNum? x = none := by
  cases x <;> simp [Cell.isNA, cellNum?] at h ⊢

/-- C8: For every numeric column the Imputer: leaves a column with no
present value entirely unchanged (in particular an all-absent column is
not filled); rounds every present value to three decimals; and replaces
every absent cell by the column's mean of present values rounded to three
decimals, whenever some value is present.  Column names and the row count
are untouched. -/
theorem mean_imputation_spec :
    ∀ (df : DataFrame) (i : ℕ) (h : i < df.cols.length),
      (mean_imputation df).nrows = df.nrows ∧
      ∃ h2 : i < (mean_imputation df).cols.length,
        ((mean_imputation df).cols[i]).1 = (df.cols[i]).1 ∧
        ((df.cols[i]).2.dtype = Dtype.numeric →
          ((df.cols[i]).2.cells.filterMap cellNum? = [] →
            ((mean_imputation df).cols[i]).2 = (df.cols[i]).2) ∧
          (∀ j (hj : j < (df.cols[i]).2.cells.length),
            ∃ hj2 : j < ((mean_imputation df).cols[i]).2.cells.length,
              (∀ q, (df.cols[i]).2.cells[j] = Cell.num q →
                ((mean_imputation df).cols[i]).2.cells[j] = Cell.num (round3 q)) ∧
              (Cell.isNA ((df.cols[i]).2.cells[j]) = true →
                (df.cols[i]).2.cells.filterMap cellNum? ≠ [] →
                ((mean_imputation df).cols[i]).2.cells[j]
                  = Cell.num (round3 (((df.cols[i]).2.cells.filterMap cellNum?).sum /
                      ((((df.cols[i]).2.cells.filterMap cellNum?).length : ℕ) : ℚ)))))) := by
  intro df i h
  have hlen : (mean_imputation df).cols.length = df.cols.length := List.length_map _ _
  have h2 : i < (mean_imputation df).cols.length := by rw [hlen]; exact h
  have hget : (mean_imputation df).cols[i]
      = ((df.cols[i]).1, mean_imputation_col (df.cols[i]).2) := by
    simp only [mean_imputation, List.getElem_map]
  have hget1 : ((mean_imputation df).cols[i]).1 = (df.cols[i]).1 := by rw [hget]
  have hget2 : ((mean_imputation df).cols[i]).2
      = mean_imputation_col (df.cols[i]).2 := by rw [hget]
  refine ⟨rfl, h2, hget1, ?_⟩
  intro hdt
  rw [hget2]
  constructor
  · -- no present value: the column is left unchanged
    intro hpres
    simp only [mean_imputation_col, hdt]
    by_cases hna : (df.cols[i]).2.cells.any Cell.isNA
    · rw [if_pos hna, if_pos (by rw [hpres]; rfl)]
    · rw [if_neg hna]
      have hmap : (df.cols[i]).2.cells.map (fun x =>
          match cellNum? x with
          | some q => Cell.num (round3 q)
          | none => x) = (df.cols[i]).2.cells := by
        apply map_fix
        intro x hx
        cases hcx : cellNum? x with
        | none => simp [hcx]
        | some q =>
          exfalso
          have hq : q ∈ (df.cols[i]).2.cells.filterMap cellNum? :=
            List.mem_filterMap.mpr ⟨x, hx, hcx⟩
          rw [hpres] at hq
          simp at hq
      rw [hmap, ← hdt]
  · -- pointwise: present values rounded, absent cells filled with the
    -- rounded mean when some value is present
    intro j hj
    have hj2 : j < (mean_imputation_col (df.cols[i]).2).cells.length := by
      rw [mean_imputation_col_length]; exact hj
    refine ⟨hj2, ?_, ?_⟩
    · intro q hq
      have hqpres : q ∈ (df.cols[i]).2.cells.filterMap cellNum? :=
        List.mem_filterMap.mpr ⟨_, List.getElem_mem _, by rw [hq]; rfl⟩
      have hpres : (df.cols[i]).2.cells.filterMap cellNum? ≠ [] := by
        intro he; rw [he] at hqpres; simp at hqpres
      by_cases hna : (df.cols[i]).2.cells.any Cell.isNA
      · have hcol : mean_imputation_col (df.cols[i]).2
            = ⟨Dtype.numeric, (df.cols[i]).2.cells.map (fun x =>
                match cellNum? x with
                | some q => Cell.num (round3 q)
                | none => Cell.num (round3 (((df.cols[i]).2.cells.filterMap cellNum?).sum /
                    ((((df.cols[i]).2.cells.filterMap cellNum?).length : ℕ) : ℚ))))⟩ := by
          simp only [mean_imputation_col, hdt]
          rw [if_pos hna, if_neg (fun he => hpres (List.length_eq_zero.mp he))]
        simp only [hcol, List.getElem_map, hq, cellNum?]
      · have hcol : mean_imputation_col (df.cols[i]).2
            = ⟨Dtype.numeric, (df.cols[i]).2.cells.map (fun x =>
                match cellNum? x with
                | some q => Cell.num (round3 q)
                | none => x)⟩ := by
          simp only [mean_imputation_col, hdt]
          rw [if_neg hna]
        simp only [hcol, List.getElem_map, hq, cellNum?]
    · intro hnaj hpres
      have hna : (df.cols[i]).2.cells.any Cell.isNA := by
        rw [List.any_eq_true]
        exact ⟨_, List.getElem_mem _, hnaj⟩
      have hcol : mean_imputation_col (df.cols[i]).2
          = ⟨Dtype.numeric, (df.cols[i]).2.cells.map (fun x =>
              match cellNum? x with
              | some q => Cell.num (round3 q)
              | none => Cell.num (round3 (((df.cols[i]).2.cells.filterMap cellNum?).sum /
                  ((((df.cols[i]).2.cells.filterMap cellNum?).length : ℕ) : ℚ))))⟩ := by
        simp only [mean_imputation_col, hdt]
        rw [if_pos hna, if_neg (fun he => hpres (List.length_eq_zero.mp he))]
      simp only [hcol, List.getElem_map, isNA_cellNum_none hnaj]

theorem mean_imputation_spec_witness :
    ∃ h0 : 0 < (mean_imputation ⟨2, [("x".data,
        ⟨Dtype.numeric, [Cell.nan, Cell.nan]⟩)]⟩).cols.length,
      ((mean_imputation ⟨2, [("x".data,
          ⟨Dtype.numeric, [Cell.nan, Cell.nan]⟩)]⟩).cols[0]).2
        = ⟨Dtype.numeric, [Cell.nan, Cell.nan]⟩ := by
  have h := mean_imputation_spec ⟨2, [("x".data, ⟨Dtype.numeric, [Cell.nan, Cell.nan]⟩)]⟩
    0 (by decide)
  obtain ⟨-, h2, -, hnum⟩ := h
  exact ⟨h2, (hnum rfl).1 rfl⟩

/-! ## C9: the missing-value reporter -/

/-- C9: The reporter computes the overall missing percentage as
exactly `100 × absent / total`, reports `0` when the total cell count is
`0`, reports zero/empty figures on an empty dataset rather than failing,
and hands the dataset back unmutated. -/
theorem report_missing_values_spec :
    ∀ df : DataFrame,
      (report_missing_values df).2 = df ∧
      (report_missing_values df).1.total = df.nrows * df.cols.length ∧
      (report_missing_values df).1.missing = (df.cols.map (fun p => countNACol p.2)).sum ∧
      ((report_missing_values df).1.total ≠ 0 →
        (report_missing_values df).1.pct
          = 100 * ((report_missing_values df).1.missing : ℚ) /
              ((report_missing_values df).1.total : ℚ)) ∧
      ((report_missing_values df).1.total = 0 →
        (report_missing_values df).1.pct = 0) ∧
      ((df.nrows = 0 ∨ df.cols = []) →
        (report_missing_values df).1.pct = 0 ∧
        (report_missing_values df).1.perCol = []) := by
  intro df
  have hz : df.nrows * df.cols.length = 0 → (report_missing_values df).1.pct = 0 := by
    intro h0
    simp only [report_missing_values]
    rw [if_neg (by omega)]
  refine ⟨rfl, rfl, rfl, ?_, hz, ?_⟩
  · intro ht
    have h0 : 0 < df.nrows * df.cols.length := Nat.pos_of_ne_zero ht
    simp only [report_missing_values]
    rw [if_pos h0]
    ring
  · intro hempty
    have h0 : df.nrows * df.cols.length = 0 := by
      rcases hempty with h | h
      · rw [h, Nat.zero_mul]
      · rw [h]
        rfl
    refine ⟨hz h0, ?_⟩
    simp only [report_missing_values]
    rw [if_pos hempty]

theorem report_missing_values_spec_witness :
    (report_missing_values ⟨0, []⟩).1.pct = 0 ∧
    (report_missing_values ⟨0, []⟩).2 = (⟨0, []⟩ : DataFrame) := by
  have h := report_missing_values_spec ⟨0, []⟩
  exact ⟨h.2.2.2.2.1 rfl, h.1⟩

/-! ## C10: an all-NaN float column survives the whole pipeline -/

lemma dedupHeaders_length : ∀ (rest : List (List Char)) counts,
    (dedupHeaders rest counts).length = rest.length := by
  intro rest
  induction rest with
  | nil => intro counts; rfl
  | cons c0 r ih =>
    intro counts
    rcases hl : lookupCount (tscol c0) counts with - | n <;>
      simp only [dedupHeaders, hl, List.length_cons, ih]

/-- C10: A numeric-dtype column whose cells are all `float('nan')`
(e.g. a fully empty CSV column loaded as float64) is retained by the
Column Classifier (NaN is a float instance), passes through imputation
with every cell still absent (the mean is undefined), and is rendered in
the cleaned output with every cell as the `NA` marker. -/
theorem all_nan_column_spec :
    ∀ (df : DataFrame) (name : List Char) (c : Column),
      1 ≤ df.nrows → (name, c) ∈ df.cols → c.dtype = Dtype.numeric →
      c.cells ≠ [] → (∀ x ∈ c.cells, x = Cell.nan) →
      ∃ stats final, process_single df = Outcome.cleaned stats final ∧
        ∃ name', (name', c) ∈ final.cols ∧
          renderCol c = c.cells.map (fun _ => "NA") := by
  intro df name c hr hm hdt hne hall
  obtain ⟨i, hi, hgi⟩ := List.mem_iff_getElem.mp hm
  have hlen1 : (cleanHeaderNames (df.cols.map Prod.fst)).length = df.cols.length := by
    rw [cleanHeaderNames, dedupHeaders_length]
    simp
  have hi0 : i < (cleanHeaderNames (df.cols.map Prod.fst)).length := by
    rw [hlen1]
    exact hi
  have hi1 : i < (clean_headers df).cols.length := by
    show i < ((cleanHeaderNames (df.cols.map Prod.fst)).zip (df.cols.map Prod.snd)).length
    rw [List.length_zip, hlen1, List.length_map, Nat.min_self]
    exact hi
  have hz : (clean_headers df).cols[i]
      = ((cleanHeaderNames (df.cols.map Prod.fst))[i], c) := by
    show ((cleanHeaderNames (df.cols.map Prod.fst)).zip (df.cols.map Prod.snd))[i] = _
    rw [List.getElem_zip]
    congr 1
    rw [List.getElem_map, hgi]
  have hmem1 : ((cleanHeaderNames (df.cols.map Prod.fst))[i], c)
      ∈ (clean_headers df).cols := by
    rw [← hz]
    exact List.getElem_mem hi1
  have hcmc : clean_mixed_col c = c := by
    apply clean_mixed_col_skip
    intro hg
    rw [hdt] at hg
    exact Dtype.noConfusion hg.1
  have hmem2 : ((cleanHeaderNames (df.cols.map Prod.fst))[i], c)
      ∈ (clean_mixed_columns (clean_headers df)).cols := by
    show ((cleanHeaderNames (df.cols.map Prod.fst))[i], c)
      ∈ (clean_headers df).cols.map (fun p => (p.1, clean_mixed_col p.2))
    rw [List.mem_map]
    refine ⟨_, hmem1, ?_⟩
    show ((cleanHeaderNames (df.cols.map Prod.fst))[i],
      clean_mixed_col c) = _
    rw [hcmc]
  have hanyinst : c.cells.any isNumInstance = true := by
    rw [List.any_eq_true]
    cases hcase : c.cells with
    | nil => exact absurd hcase hne
    | cons x r =>
      refine ⟨x, hcase ▸ List.mem_cons_self x r, ?_⟩
      rw [hall x (hcase ▸ List.mem_cons_self x r)]
      rfl
  have hret : colRetained c = true := by
    rw [colRetained, hanyinst, Bool.true_or]
  have hmem3 : ((cleanHeaderNames (df.cols.map Prod.fst))[i], c)
      ∈ (remove_fully_non_numeric_columns (clean_mixed_columns (clean_headers df))).cols :=
    List.mem_filter.mpr ⟨hmem2, hret⟩
  have hpres : c.cells.filterMap cellNum? = [] := by
    rw [List.filterMap_eq_nil_iff]
    intro x hx
    rw [hall x hx]
    rfl
  have hanyna : c.cells.any Cell.isNA = true := by
    rw [List.any_eq_true]
    cases hcase : c.cells with
    | nil => exact absurd hcase hne
    | cons x r =>
      have hx := hall x (hcase ▸ List.mem_cons_self x r)
      exact ⟨x, hcase ▸ List.mem_cons_self x r, by rw [hx]; rfl⟩
  have himp : mean_imputation_col c = c := by
    simp only [mean_imputation_col, hdt]
    rw [if_pos hanyna, if_pos (by rw [hpres]; rfl)]
  have hmem4 : ((cleanHeaderNames (df.cols.map Prod.fst))[i], c)
      ∈ (mean_imputation (remove_fully_non_numeric_columns
          (clean_mixed_columns (clean_headers df)))).cols := by
    show ((cleanHeaderNames (df.cols.map Prod.fst))[i], c)
      ∈ (remove_fully_non_numeric_columns
        (clean_mixed_columns (clean_headers df))).cols.map (fun p => (p.1, mean_imputation_col p.2))
    rw [List.mem_map]
    refine ⟨_, hmem3, ?_⟩
    show ((cleanHeaderNames (df.cols.map Prod.fst))[i],
      mean_imputation_col c) = _
    rw [himp]
  have hproc : process_single df = Outcome.cleaned
      (report_missing_values (remove_fully_non_numeric_columns
        (clean_mixed_columns (clean_headers df)))).1
      (mean_imputation (remove_fully_non_numeric_columns
        (clean_mixed_columns (clean_headers df)))) := by
    rw [process_single]
    rw [if_neg (by
      rintro (h1 | h1)
      · omega
      · exact List.ne_nil_of_mem hm h1)]
    rw [if_neg (by
      rintro ((h1 | h1) | h1)
      · have : (remove_fully_non_numeric_columns
            (clean_mixed_columns (clean_headers df))).nrows = df.nrows := rfl
        omega
      · exact List.ne_nil_of_mem hmem3 h1
      · exact List.ne_nil_of_mem hmem3 (List.length_eq_zero.mp h1))]
  refine ⟨_, _, hproc, _, hmem4, ?_⟩
  rw [renderCol]
  apply List.map_congr_left
  intro x hx
  rw [hall x hx]
  rfl

theorem all_nan_column_spec_witness :
    ∃ stats final,
      process_single ⟨1, [("x".data, ⟨Dtype.numeric, [Cell.nan]⟩)]⟩
        = Outcome.cleaned stats final ∧
      ∃ name', (name', (⟨Dtype.numeric, [Cell.nan]⟩ : Column)) ∈ final.cols ∧
        renderCol ⟨Dtype.numeric, [Cell.nan]⟩ = [Cell.nan].map (fun _ => "NA") :=
  all_nan_column_spec ⟨1, [("x".data, ⟨Dtype.numeric, [Cell.nan]⟩)]⟩ "x".data
    ⟨Dtype.numeric, [Cell.nan]⟩ (by decide) (by decide) rfl (by decide)
    (by intro x hx; simpa using hx)

end CleanDB


